/-
Verification of the GoRedis storage layer (ordered list, sorted set,
path-addressed document) against its natural-language specification.

The development shallowly embeds the Go sources:
  * goredis_server/libs/levelredis/level_list.go   (LevelList)
  * goredis_server/go_redis_server_list.go         (LevelZSet, MapDocument)

The ordered key-value engine (levigo / LevelRedis) is not part of the
sources; its contract (point get/put/delete, atomic write batch, range
enumeration over lexicographically ordered binary keys) is modelled from
the spec, section 6.  Keys and values are byte strings, modelled as
`List Nat`.  The key-codec constants (KEY_PREFIX = "__key",
LIST_PREFIX = "__list", ZSET_PREFIX = "__zset", the brace delimiters,
the '#' separator and the max-byte sentinel) are modelled from the
spec's key table, section 3.
-/
import Mathlib

namespace GoRedis

/-- Binary strings: engine keys and values. -/
abbrev Bytes := List Nat

/-! ### Decimal codec

`strconv.FormatInt` / `strconv.Itoa` render integers in decimal ASCII;
`strconv.ParseInt` / `strconv.Atoi` parse them.  (The score encoding
`Int64ToBytes` is not under src/; it is modelled from the spec's key
example `__zset[user_rank]s#1378000907596#100428`, which shows scores
stored as decimal ASCII.)  The digit emitter uses fuel so that it is
structurally recursive and kernel-reducible. -/

/-- Decimal digits (ASCII) of `n`, most significant first; `[]` for 0.
`fuel` must exceed `n` for a complete rendering. -/
def natDigs : Nat → Nat → Bytes
  | 0, _ => []
  | fuel + 1, n => if n = 0 then [] else natDigs fuel (n / 10) ++ [n % 10 + 48]

/-- Decimal ASCII rendering of a natural number. -/
def natBytes (n : Nat) : Bytes :=
  if n = 0 then [48] else natDigs (n + 1) n

/-- Decimal ASCII rendering of an integer (strconv.FormatInt base 10). -/
def intBytes (i : Int) : Bytes :=
  if i < 0 then 45 :: natBytes i.natAbs else natBytes i.natAbs

/-- Fold a digit string back to a natural number. -/
def decDigs (b : Bytes) : Nat :=
  b.foldl (fun a d => a * 10 + (d - 48)) 0

/-- Decimal ASCII parse of an integer (strconv.ParseInt base 10,
errors ignored as in the Go call sites). -/
def parseIntB : Bytes → Int
  | 45 :: rest => -(decDigs rest : Int)
  | b => (decDigs b : Int)

theorem natDigs_mem_digit {fuel n d : Nat} (hd : d ∈ natDigs fuel n) :
    48 ≤ d ∧ d < 58 := by
  induction fuel generalizing n with
  | zero => simp [natDigs] at hd
  | succ fuel ih =>
    rw [natDigs] at hd
    split at hd
    · simp at hd
    · rcases List.mem_append.1 hd with h | h
      · exact ih h
      · simp only [List.mem_singleton] at h
        subst h
        constructor
        · omega
        · have := Nat.mod_lt n (by omega : 0 < 10)
          omega

theorem natBytes_mem_digit {n d : Nat} (hd : d ∈ natBytes n) :
    48 ≤ d ∧ d < 58 := by
  unfold natBytes at hd
  split at hd
  · simp at hd; omega
  · exact natDigs_mem_digit hd

theorem natBytes_ne_nil (n : Nat) : natBytes n ≠ [] := by
  unfold natBytes
  split
  · simp
  · rename_i h
    rw [natDigs]
    simp only [if_neg h]
    simp

/-- `35` (the '#' delimiter) never occurs in a decimal rendering. -/
theorem intBytes_sepFree (i : Int) : 35 ∉ intBytes i := by
  intro hmem
  unfold intBytes at hmem
  split at hmem
  · rcases List.mem_cons.1 hmem with h | h
    · omega
    · have := natBytes_mem_digit h; omega
  · have := natBytes_mem_digit hmem; omega

theorem decDigs_append_digit (a : Bytes) (d : Nat) :
    decDigs (a ++ [d]) = decDigs a * 10 + (d - 48) := by
  simp [decDigs, List.foldl_append]

theorem decDigs_natDigs {fuel n : Nat} (h : n < fuel) :
    decDigs (natDigs fuel n) = n := by
  induction fuel generalizing n with
  | zero => omega
  | succ fuel ih =>
    rw [natDigs]
    split
    · rename_i h0
      subst h0
      simp [decDigs]
    · rename_i h0
      rw [decDigs_append_digit]
      have hdiv : n / 10 < fuel := by
        have h1 : n / 10 < n := Nat.div_lt_self (by omega) (by omega)
        omega
      rw [ih hdiv]
      have := Nat.div_add_mod n 10
      omega

theorem decDigs_natBytes (n : Nat) : decDigs (natBytes n) = n := by
  unfold natBytes
  split
  · simp [decDigs]; omega
  · exact decDigs_natDigs (Nat.lt_succ_self n)

theorem natBytes_inj {a b : Nat} (h : natBytes a = natBytes b) : a = b := by
  have := decDigs_natBytes a
  rw [h, decDigs_natBytes] at this
  omega

theorem natBytes_head_ne_45 {n : Nat} {d : Nat} {rest : Bytes}
    (h : natBytes n = d :: rest) : d ≠ 45 := by
  have : d ∈ natBytes n := by rw [h]; exact List.mem_cons_self d rest
  have := natBytes_mem_digit this
  omega

theorem intBytes_inj {a b : Int} (h : intBytes a = intBytes b) : a = b := by
  unfold intBytes at h
  split at h <;> split at h
  · rename_i ha hb
    simp only [List.cons.injEq, true_and] at h
    have := natBytes_inj h
    omega
  · rename_i ha hb
    rcases hnb : natBytes b.natAbs with _ | ⟨d, rest⟩
    · exact absurd hnb (natBytes_ne_nil _)
    · rw [hnb] at h
      have := natBytes_head_ne_45 hnb
      simp only [List.cons.injEq] at h
      exact absurd h.1.symm this
  · rename_i ha hb
    rcases hna : natBytes a.natAbs with _ | ⟨d, rest⟩
    · exact absurd hna (natBytes_ne_nil _)
    · rw [hna] at h
      have := natBytes_head_ne_45 hna
      simp only [List.cons.injEq] at h
      exact absurd h.1 this
  · rename_i ha hb
    have := natBytes_inj h
    omega

/-! ### Ordered KV engine model

Modelled from the spec, section 6: point get/put/delete, an atomic
write batch, and range enumeration in lexicographic key order.  The
store is an association list with (by construction) unique keys; a put
removes any previous binding and appends the new one. -/

/-- Engine store: association list from keys to values. -/
abbrev Store := List (Bytes × Bytes)

/-- Point lookup (first matching binding). -/
def storeGet : Store → Bytes → Option Bytes
  | [], _ => none
  | (k, v) :: rest, q => if k = q then some v else storeGet rest q

/-- Remove every binding of `k`. -/
def storeDel (s : Store) (k : Bytes) : Store :=
  s.filter (fun p => p.1 ≠ k)

/-- Bind `k` to `v` (replacing any previous binding). -/
def storePut (s : Store) (k v : Bytes) : Store :=
  storeDel s k ++ [(k, v)]

/-- One operation of a levigo write batch. -/
inductive BOp where
  | put (k v : Bytes)
  | del (k : Bytes)
deriving DecidableEq

/-- Apply a single batch operation. -/
def applyOp (s : Store) : BOp → Store
  | .put k v => storePut s k v
  | .del k => storeDel s k

/-- Apply a write batch atomically, in order (later operations win). -/
def applyBatch (s : Store) (b : List BOp) : Store :=
  b.foldl applyOp s

/-- `db.Write`: the batch either fully applies or fully fails.  The
`fail : Bool` parameter injects an engine failure; `some ()` is the
returned error. -/
def writeBatch (s : Store) (fail : Bool) (b : List BOp) :
    Store × Option Unit :=
  if fail then (s, some ()) else (applyBatch s b, none)

/-- Boolean byte-string order, lexicographic (leveldb's bytewise
comparator): a proper extension is greater. -/
def bytesLe : Bytes → Bytes → Bool
  | [], _ => true
  | _ :: _, [] => false
  | a :: as, b :: bs => a < b || (a = b && bytesLe as bs)

/-- Boolean "is an initial segment of". -/
def isPre : Bytes → Bytes → Bool
  | [], _ => true
  | _ :: _, [] => false
  | a :: as, b :: bs => a = b && isPre as bs

/-- Keys of `s` lying in the closed range `[lo, hi]`.  Modelled from
the spec (section 6): the engine's `Enumerate` visits these keys in
lexicographic order; the only enumeration client embedded here
(`Drop`) deletes every visited key and ignores the visit order, the
sequence index and the quit flag, so the key set suffices. -/
def keysInRange (s : Store) (lo hi : Bytes) : List Bytes :=
  (s.map Prod.fst).filter (fun k => bytesLe lo k && bytesLe k hi)

theorem storeGet_put (s : Store) (k v q : Bytes) :
    storeGet (storePut s k v) q = if k = q then some v else storeGet s q := by
  unfold storePut storeDel
  induction s with
  | nil => by_cases h : k = q <;> simp [storeGet, h]
  | cons p rest ih =>
    rcases p with ⟨pk, pv⟩
    by_cases hp : pk = k
    · subst hp
      rw [List.filter_cons_of_neg (by simp)]
      rw [ih]
      by_cases hq : pk = q
      · simp [hq]
      · simp [storeGet, hq]
    · rw [List.filter_cons_of_pos (by simp [hp])]
      by_cases hq : pk = q
      · subst hq
        have hkq : k ≠ pk := fun h => hp h.symm
        simp [storeGet, hkq]
      · simp only [List.cons_append, storeGet, if_neg hq]
        exact ih

theorem storeGet_del (s : Store) (k q : Bytes) :
    storeGet (storeDel s k) q = if k = q then none else storeGet s q := by
  unfold storeDel
  induction s with
  | nil => by_cases h : k = q <;> simp [storeGet, h]
  | cons p rest ih =>
    rcases p with ⟨pk, pv⟩
    by_cases hp : pk = k
    · subst hp
      rw [List.filter_cons_of_neg (by simp)]
      rw [ih]
      by_cases hq : pk = q
      · simp [hq]
      · simp [storeGet, hq]
    · rw [List.filter_cons_of_pos (by simp [hp])]
      by_cases hq : pk = q
      · subst hq
        have hkq : k ≠ pk := fun h => hp h.symm
        simp [storeGet, hkq]
      · simp only [storeGet, if_neg hq]
        exact ih

theorem storeGet_applyOp (s : Store) (op : BOp) (q : Bytes) :
    storeGet (applyOp s op) q =
      match op with
      | .put k v => if k = q then some v else storeGet s q
      | .del k => if k = q then none else storeGet s q := by
  cases op with
  | put k v => exact storeGet_put s k v q
  | del k => exact storeGet_del s k q

/-- Accumulating net effect of one batch operation on key `q`. -/
def effStep (q : Bytes) (acc : Option (Option Bytes)) : BOp → Option (Option Bytes)
  | .put k v => if k = q then some (some v) else acc
  | .del k => if k = q then some none else acc

/-- Net effect of a batch on a single key: `none` if the batch never
touches it, otherwise `some` of the last touching operation's result. -/
def batchEff (q : Bytes) (b : List BOp) : Option (Option Bytes) :=
  b.foldl (effStep q) none

theorem effStep_put (q : Bytes) (acc : Option (Option Bytes)) (k v : Bytes) :
    effStep q acc (.put k v) = if k = q then some (some v) else acc := rfl

theorem effStep_del (q : Bytes) (acc : Option (Option Bytes)) (k : Bytes) :
    effStep q acc (.del k) = if k = q then some none else acc := rfl

theorem foldl_effStep_some (q : Bytes) (l : List BOp) :
    ∀ x : Option Bytes,
      l.foldl (effStep q) (some x) =
        some (match batchEff q l with | none => x | some r => r) := by
  induction l with
  | nil => intro x; simp [batchEff]
  | cons op rest ih =>
    intro x
    cases op with
    | put k v =>
      by_cases hk : k = q
      · have h1 : (BOp.put k v :: rest).foldl (effStep q) (some x)
            = rest.foldl (effStep q) (some (some v)) := by
          rw [List.foldl_cons, effStep_put, if_pos hk]
        have h2 : batchEff q (BOp.put k v :: rest)
            = rest.foldl (effStep q) (some (some v)) := by
          rw [batchEff, List.foldl_cons, effStep_put, if_pos hk]
        rw [h1, h2, ih (some v)]
      · have h1 : (BOp.put k v :: rest).foldl (effStep q) (some x)
            = rest.foldl (effStep q) (some x) := by
          rw [List.foldl_cons, effStep_put, if_neg hk]
        have h2 : batchEff q (BOp.put k v :: rest) = batchEff q rest := by
          rw [batchEff, List.foldl_cons, effStep_put, if_neg hk]; rfl
        rw [h1, h2, ih x]
    | del k =>
      by_cases hk : k = q
      · have h1 : (BOp.del k :: rest).foldl (effStep q) (some x)
            = rest.foldl (effStep q) (some none) := by
          rw [List.foldl_cons, effStep_del, if_pos hk]
        have h2 : batchEff q (BOp.del k :: rest)
            = rest.foldl (effStep q) (some none) := by
          rw [batchEff, List.foldl_cons, effStep_del, if_pos hk]
        rw [h1, h2, ih none]
      · have h1 : (BOp.del k :: rest).foldl (effStep q) (some x)
            = rest.foldl (effStep q) (some x) := by
          rw [List.foldl_cons, effStep_del, if_neg hk]
        have h2 : batchEff q (BOp.del k :: rest) = batchEff q rest := by
          rw [batchEff, List.foldl_cons, effStep_del, if_neg hk]; rfl
        rw [h1, h2, ih x]

theorem storeGet_applyBatch (s : Store) (b : List BOp) (q : Bytes) :
    storeGet (applyBatch s b) q =
      match batchEff q b with
      | none => storeGet s q
      | some r => r := by
  induction b generalizing s with
  | nil => simp [applyBatch, batchEff]
  | cons op rest ih =>
    have happ : applyBatch s (op :: rest) = applyBatch (applyOp s op) rest := rfl
    rw [happ, ih]
    cases op with
    | put k v =>
      have hop : storeGet (applyOp s (BOp.put k v)) q
          = if k = q then some v else storeGet s q := storeGet_put s k v q
      by_cases hk : k = q
      · have hbe : batchEff q (BOp.put k v :: rest)
            = some (match batchEff q rest with | none => some v | some r => r) := by
          rw [batchEff, List.foldl_cons, effStep_put, if_pos hk, foldl_effStep_some]
        rw [hbe, hop, if_pos hk]
      · have hbe : batchEff q (BOp.put k v :: rest) = batchEff q rest := by
          rw [batchEff, List.foldl_cons, effStep_put, if_neg hk]; rfl
        rw [hbe, hop, if_neg hk]
    | del k =>
      have hop : storeGet (applyOp s (BOp.del k)) q
          = if k = q then none else storeGet s q := storeGet_del s k q
      by_cases hk : k = q
      · have hbe : batchEff q (BOp.del k :: rest)
            = some (match batchEff q rest with | none => none | some r => r) := by
          rw [batchEff, List.foldl_cons, effStep_del, if_pos hk, foldl_effStep_some]
        rw [hbe, hop, if_pos hk]
      · have hbe : batchEff q (BOp.del k :: rest) = batchEff q rest := by
          rw [batchEff, List.foldl_cons, effStep_del, if_neg hk]; rfl
        rw [hbe, hop, if_neg hk]

/-! ### Key codec

Byte constants modelled from the spec's key table (section 3):
`KEY_PREFIX = "__key"`, `LIST_PREFIX = "__list"`, `ZSET_PREFIX =
"__zset"`, `SEP_LEFT`/`SEP_RIGHT` the brace bytes 123/125, `SEP` the
hash byte 35, `LIST_SUFFIX = ":list"`, `ZSET_SUFFIX = ":zset"`,
`MAXBYTE` the sentinel 255.  The concatenation order of each key is
taken from the source (`joinStringBytes` call sites). -/

/-- "__key" -/
def keyStem : Bytes := [95, 95, 107, 101, 121]

/-- "__list" -/
def listStem : Bytes := [95, 95, 108, 105, 115, 116]

/-- "__zset" -/
def zsetStem : Bytes := [95, 95, 122, 115, 101, 116]

/-- Max-byte sentinel appended to a stem to form a range upper bound. -/
def MAXB : Nat := 255

/-- `LevelList.infoKey`: `__key{entrykey}:list`. -/
def infoKeyL (k : Bytes) : Bytes :=
  keyStem ++ [123] ++ k ++ [125, 58, 108, 105, 115, 116]

/-- Constant part of a list element key: `__list{entrykey}idx:`. -/
def idxStem (k : Bytes) : Bytes :=
  listStem ++ [123] ++ k ++ [125, 105, 100, 120, 58]

/-- `LevelList.idxKey`: `__list{entrykey}idx:<cursor decimal>`. -/
def idxKey (k : Bytes) (i : Int) : Bytes :=
  idxStem k ++ intBytes i

/-- `LevelList.infoValue`: `"<start>,<end>"`. -/
def infoValue (s e : Int) : Bytes :=
  intBytes s ++ [44] ++ intBytes e

/-- `LevelZSet.zsetKey` (the count record): `__key{key}:zset`. -/
def zsetKey (k : Bytes) : Bytes :=
  keyStem ++ [123] ++ k ++ [125, 58, 122, 115, 101, 116]

/-- Constant part of a member-index key: `__zset{key}m#`. -/
def memberStem (k : Bytes) : Bytes :=
  zsetStem ++ [123] ++ k ++ [125, 109, 35]

/-- `LevelZSet.memberKey`: `__zset{key}m#<member>`. -/
def memberKey (k m : Bytes) : Bytes :=
  memberStem k ++ m

/-- `LevelZSet.scoreKeyPrefix`: `__zset{key}s#`. -/
def scoreStem (k : Bytes) : Bytes :=
  zsetStem ++ [123] ++ k ++ [125, 115, 35]

/-- `LevelZSet.scoreKey`: `__zset{key}s#<score>#<member>`. -/
def scoreKey (k m s : Bytes) : Bytes :=
  scoreStem k ++ s ++ [35] ++ m

/-- Lower bound of the range `LevelZSet.Drop` enumerates: `__key{key}`
(note: the `__key` family, not the `__zset` family). -/
def zdropMin (k : Bytes) : Bytes :=
  keyStem ++ [123] ++ k

/-- Byte string free of the `'#'` delimiter. -/
def sepFree (b : Bytes) : Prop := 35 ∉ b

instance (b : Bytes) : Decidable (sepFree b) := by
  unfold sepFree; infer_instance

/-! #### Codec facts -/

theorem idxKey_inj {k : Bytes} {i j : Int} (h : idxKey k i = idxKey k j) :
    i = j := by
  unfold idxKey at h
  exact intBytes_inj (List.append_cancel_left h)

theorem infoKeyL_ne_idxKey (k : Bytes) (i : Int) : infoKeyL k ≠ idxKey k i := by
  intro h
  simp [infoKeyL, idxKey, idxStem, keyStem, listStem] at h

/-- The '#'-delimited middles of two score keys coincide only when the
scores and members do (scores and members '#'-free). -/
theorem sep_split_inj {s1 m1 s2 m2 : Bytes}
    (hs1 : sepFree s1) (hs2 : sepFree s2)
    (h : s1 ++ 35 :: m1 = s2 ++ 35 :: m2) : s1 = s2 ∧ m1 = m2 := by
  induction s1 generalizing s2 with
  | nil =>
    cases s2 with
    | nil => simp at h; exact ⟨rfl, h⟩
    | cons b bs =>
      simp only [List.nil_append, List.cons_append, List.cons.injEq] at h
      exact absurd (h.1 ▸ List.mem_cons_self b bs : (35 : Nat) ∈ b :: bs)
        (by rw [← h.1]; exact fun hc => hs2 (h.1 ▸ hc))
  | cons a as ih =>
    cases s2 with
    | nil =>
      simp only [List.cons_append, List.nil_append, List.cons.injEq] at h
      exact absurd (List.mem_cons_self a as)
        (by intro hc; exact hs1 (h.1 ▸ hc))
    | cons b bs =>
      simp only [List.cons_append, List.cons.injEq] at h
      have hs1' : sepFree as := fun hc => hs1 (List.mem_cons_of_mem a hc)
      have hs2' : sepFree bs := fun hc => hs2 (List.mem_cons_of_mem b hc)
      rcases ih hs1' hs2' h.2 with ⟨he1, he2⟩
      exact ⟨by rw [h.1, he1], he2⟩

theorem memberKey_inj {k m1 m2 : Bytes} (h : memberKey k m1 = memberKey k m2) :
    m1 = m2 :=
  List.append_cancel_left (h : memberStem k ++ m1 = memberStem k ++ m2)

theorem scoreKey_inj {k m1 s1 m2 s2 : Bytes}
    (hs1 : sepFree s1) (hs2 : sepFree s2)
    (h : scoreKey k m1 s1 = scoreKey k m2 s2) : m1 = m2 ∧ s1 = s2 := by
  unfold scoreKey at h
  have h2 : s1 ++ 35 :: m1 = s2 ++ 35 :: m2 := by
    have := List.append_cancel_left
      (by simpa [List.append_assoc] using h :
        scoreStem k ++ (s1 ++ 35 :: m1) = scoreStem k ++ (s2 ++ 35 :: m2))
    exact this
  have := sep_split_inj hs1 hs2 h2
  exact ⟨this.2, this.1⟩

theorem memberKey_ne_scoreKey (k m m' s : Bytes) :
    memberKey k m ≠ scoreKey k m' s := by
  intro h
  unfold memberKey memberStem scoreKey scoreStem zsetStem at h
  simp only [List.append_assoc, List.cons_append, List.nil_append,
    List.cons.injEq, true_and] at h
  have := List.append_cancel_left h
  simp at this

theorem zsetKey_ne_memberKey (k m : Bytes) : zsetKey k ≠ memberKey k m := by
  intro h
  simp [zsetKey, memberKey, memberStem, keyStem, zsetStem] at h

theorem zsetKey_ne_scoreKey (k m s : Bytes) : zsetKey k ≠ scoreKey k m s := by
  intro h
  simp [zsetKey, scoreKey, scoreStem, keyStem, zsetStem] at h

theorem isPre_refl_append (a b : Bytes) : isPre a (a ++ b) = true := by
  induction a with
  | nil => rfl
  | cons x xs ih => simp [isPre, ih]

theorem isPre_cancel (x a b : Bytes) :
    isPre (x ++ a) (x ++ b) = isPre a b := by
  induction x with
  | nil => rfl
  | cons c cs ih => simp [isPre, ih]

theorem isPre_memberStem_memberKey (k m : Bytes) :
    isPre (memberStem k) (memberKey k m) = true := by
  unfold memberKey; exact isPre_refl_append _ _

theorem isPre_memberStem_scoreKey (k m s : Bytes) :
    isPre (memberStem k) (scoreKey k m s) = false := by
  unfold memberStem scoreKey scoreStem
  have h1 : zsetStem ++ [123] ++ k ++ [125, 109, 35]
      = (zsetStem ++ [123] ++ k) ++ [125, 109, 35] := by
    simp [List.append_assoc]
  have h2 : zsetStem ++ [123] ++ k ++ [125, 115, 35] ++ s ++ [35] ++ m
      = (zsetStem ++ [123] ++ k) ++ ([125, 115, 35] ++ s ++ [35] ++ m) := by
    simp [List.append_assoc]
  rw [h1, h2, isPre_cancel]
  simp [isPre]

theorem isPre_memberStem_zsetKey (k : Bytes) :
    isPre (memberStem k) (zsetKey k) = false := by
  simp [memberStem, zsetKey, keyStem, zsetStem, isPre]

/-! #### Store key counting -/

/-- Keys of a store are pairwise distinct. -/
def nodupKeys (s : Store) : Prop := (s.map Prod.fst).Nodup

/-- Number of bindings whose key satisfies `Q`. -/
def countKey (Q : Bytes → Bool) (s : Store) : Nat :=
  (s.map Prod.fst).countP Q

theorem storeGet_eq_none_of_not_mem {s : Store} {k : Bytes}
    (h : k ∉ s.map Prod.fst) : storeGet s k = none := by
  induction s with
  | nil => rfl
  | cons p rest ih =>
    rcases p with ⟨pk, pv⟩
    simp only [List.map_cons, List.mem_cons] at h
    push_neg at h
    have hne : pk ≠ k := fun he => h.1 he.symm
    show (if pk = k then some pv else storeGet rest k) = none
    rw [if_neg hne]
    exact ih h.2

theorem storeDel_of_absent {s : Store} {k : Bytes}
    (h : storeGet s k = none) : storeDel s k = s := by
  induction s with
  | nil => rfl
  | cons p rest ih =>
    rcases p with ⟨pk, pv⟩
    unfold storeGet at h
    by_cases hp : pk = k
    · rw [if_pos hp] at h; cases h
    · rw [if_neg hp] at h
      unfold storeDel at ih ⊢
      rw [List.filter_cons_of_pos (by simp [hp])]
      rw [ih h]

theorem countKey_del_not {s : Store} {k : Bytes} {Q : Bytes → Bool}
    (h : Q k = false) : countKey Q (storeDel s k) = countKey Q s := by
  induction s with
  | nil => rfl
  | cons p rest ih =>
    rcases p with ⟨pk, pv⟩
    unfold storeDel at ih ⊢
    by_cases hp : pk = k
    · subst hp
      rw [List.filter_cons_of_neg (by simp)]
      rw [ih]
      unfold countKey
      simp [List.countP_cons, h]
    · rw [List.filter_cons_of_pos (by simp [hp])]
      unfold countKey at ih ⊢
      simp only [List.map_cons, List.countP_cons]
      rw [ih]

theorem countKey_del_present {s : Store} {k v : Bytes} {Q : Bytes → Bool}
    (hnd : nodupKeys s) (h : storeGet s k = some v) :
    countKey Q (storeDel s k) + (if Q k then 1 else 0) = countKey Q s := by
  induction s with
  | nil => cases h
  | cons p rest ih =>
    rcases p with ⟨pk, pv⟩
    unfold nodupKeys at hnd
    simp only [List.map_cons, List.nodup_cons] at hnd
    unfold storeGet at h
    by_cases hp : pk = k
    · subst hp
      have hrest : storeGet rest pk = none :=
        storeGet_eq_none_of_not_mem hnd.1
      unfold storeDel
      rw [List.filter_cons_of_neg (by simp)]
      have : List.filter (fun p => decide (p.1 ≠ pk)) rest = rest :=
        storeDel_of_absent hrest
      rw [this]
      unfold countKey
      simp only [List.map_cons, List.countP_cons]
    · rw [if_neg hp] at h
      unfold storeDel
      rw [List.filter_cons_of_pos (by simp [hp])]
      unfold countKey
      simp only [List.map_cons, List.countP_cons]
      have := ih hnd.2 h
      unfold countKey storeDel at this
      omega

theorem countKey_put_present {s : Store} {k v v0 : Bytes} {Q : Bytes → Bool}
    (hnd : nodupKeys s) (h : storeGet s k = some v0) :
    countKey Q (storePut s k v) = countKey Q s := by
  unfold storePut countKey
  rw [List.map_append, List.countP_append]
  have := countKey_del_present (v := v0) (Q := Q) hnd h
  unfold countKey at this
  simp only [List.map_cons, List.map_nil, List.countP_cons, List.countP_nil]
  by_cases hq : Q k = true
  · simp [hq] at this ⊢; omega
  · simp at hq; simp [hq] at this ⊢; omega

theorem countKey_put_absent {s : Store} {k v : Bytes} {Q : Bytes → Bool}
    (h : storeGet s k = none) :
    countKey Q (storePut s k v) = countKey Q s + (if Q k then 1 else 0) := by
  unfold storePut
  rw [storeDel_of_absent h]
  unfold countKey
  rw [List.map_append, List.countP_append]
  simp only [List.map_cons, List.map_nil, List.countP_cons, List.countP_nil]
  by_cases hq : Q k = true <;> simp [hq]

theorem nodupKeys_del {s : Store} (hnd : nodupKeys s) (k : Bytes) :
    nodupKeys (storeDel s k) := by
  unfold nodupKeys storeDel at *
  induction s with
  | nil => simp
  | cons p rest ih =>
    rcases p with ⟨pk, pv⟩
    simp only [List.map_cons, List.nodup_cons] at hnd
    by_cases hp : pk = k
    · rw [List.filter_cons_of_neg (by simp [hp])]
      exact ih hnd.2
    · rw [List.filter_cons_of_pos (by simp [hp])]
      simp only [List.map_cons, List.nodup_cons]
      refine ⟨fun hc => hnd.1 ?_, ih hnd.2⟩
      rcases List.mem_map.1 hc with ⟨q, hq1, hq2⟩
      exact List.mem_map.2 ⟨q, List.mem_of_mem_filter hq1, hq2⟩

theorem not_mem_del_keys (s : Store) (k : Bytes) :
    k ∉ (storeDel s k).map Prod.fst := by
  intro hc
  rcases List.mem_map.1 hc with ⟨q, hq1, hq2⟩
  have := List.of_mem_filter hq1
  simp only [decide_eq_true_eq] at this
  exact this hq2

theorem nodupKeys_put {s : Store} (hnd : nodupKeys s) (k v : Bytes) :
    nodupKeys (storePut s k v) := by
  unfold nodupKeys storePut
  rw [List.map_append]
  apply List.Nodup.append (nodupKeys_del hnd k)
  · simp
  · intro a ha hb
    simp only [List.map_cons, List.map_nil, List.mem_singleton] at hb
    rw [hb] at ha
    exact not_mem_del_keys s k ha

theorem nodupKeys_applyOp {s : Store} (hnd : nodupKeys s) (op : BOp) :
    nodupKeys (applyOp s op) := by
  cases op with
  | put k v => exact nodupKeys_put hnd k v
  | del k => exact nodupKeys_del hnd k

theorem nodupKeys_applyBatch {s : Store} (hnd : nodupKeys s) (b : List BOp) :
    nodupKeys (applyBatch s b) := by
  induction b generalizing s with
  | nil => exact hnd
  | cons op rest ih => exact ih (nodupKeys_applyOp hnd op)

/-! ### LevelList embedding (level_list.go)

The struct fields `start`, `end`, `inTransaction` plus the engine
store; `entryKey` is the `key` field.  Engine reads never fail in this
model; `fail` injects a batch-write failure. -/

structure LState where
  key : Bytes
  start : Int
  endc : Int
  inTransaction : Bool
  store : Store
deriving DecidableEq

/-- `LevelList.len`: `0` if `end < start`, else `end - start + 1`. -/
def lenI (st : LState) : Int :=
  if st.endc < st.start then 0 else st.endc - st.start + 1

/-- `NewLevelList` over an empty engine: `initInfo` finds no info key
and leaves the canonical empty window `start=0, end=-1`. -/
def linit (key : Bytes) : LState :=
  ⟨key, 0, -1, false, []⟩

/-- Element-key puts issued by the `LPush` loop (`l.start--` then
`batch.Put(l.idxKey(l.start), value)` per value). -/
def lpushOps (key : Bytes) : Int → List Bytes → List BOp
  | _, [] => []
  | start, v :: vs => BOp.put (idxKey key (start - 1)) v :: lpushOps key (start - 1) vs

/-- Element-key puts issued by the `RPush` loop. -/
def rpushOps (key : Bytes) : Int → List Bytes → List BOp
  | _, [] => []
  | endc, v :: vs => BOp.put (idxKey key (endc + 1)) v :: rpushOps key (endc + 1) vs

/-- `LevelList.LPush`: write all element keys (plus, outside a
transaction, the info key) in one batch; on failure roll the cursor
back and propagate the error. -/
def lpushS (st : LState) (fail : Bool) (values : List Bytes) :
    LState × Option Unit :=
  let start2 := st.start - values.length
  let batch := lpushOps st.key st.start values ++
    (if st.inTransaction then []
     else [BOp.put (infoKeyL st.key) (infoValue start2 st.endc)])
  match writeBatch st.store fail batch with
  | (s2, none) => ({ st with store := s2, start := start2 }, none)
  | (s2, some e) => ({ st with store := s2 }, some e)

/-- `LevelList.RPush`. -/
def rpushS (st : LState) (fail : Bool) (values : List Bytes) :
    LState × Option Unit :=
  let end2 := st.endc + values.length
  let batch := rpushOps st.key st.endc values ++
    (if st.inTransaction then []
     else [BOp.put (infoKeyL st.key) (infoValue st.start end2)])
  match writeBatch st.store fail batch with
  | (s2, none) => ({ st with store := s2, endc := end2 }, none)
  | (s2, some e) => ({ st with store := s2 }, some e)

/-- `LevelList.LPop`: empty list yields "no element, no error";
otherwise read the left boundary element, then batch its deletion with
either the info-key delete (last element: reset to `0, -1`) or the
info-key rewrite (`start+1`); roll cursors back on batch failure. -/
def lpopS (st : LState) (fail : Bool) :
    LState × Option (Option Bytes) × Option Unit :=
  if lenI st = 0 then (st, none, none)
  else
    let idx := st.start
    let v := storeGet st.store (idxKey st.key idx)
    let shouldReset := lenI st = 1
    let start2 : Int := if shouldReset then 0 else st.start + 1
    let end2 : Int := if shouldReset then -1 else st.endc
    let batch := BOp.del (idxKey st.key idx) ::
      (if shouldReset then [BOp.del (infoKeyL st.key)]
       else [BOp.put (infoKeyL st.key) (infoValue start2 end2)])
    match writeBatch st.store fail batch with
    | (s2, none) => ({ st with store := s2, start := start2, endc := end2 }, some v, none)
    | (s2, some e) => ({ st with store := s2 }, some v, some e)

/-- `LevelList.RPop` (right boundary). -/
def rpopS (st : LState) (fail : Bool) :
    LState × Option (Option Bytes) × Option Unit :=
  if lenI st = 0 then (st, none, none)
  else
    let idx := st.endc
    let v := storeGet st.store (idxKey st.key idx)
    let shouldReset := lenI st = 1
    let start2 : Int := if shouldReset then 0 else st.start
    let end2 : Int := if shouldReset then -1 else st.endc - 1
    let batch := BOp.del (idxKey st.key idx) ::
      (if shouldReset then [BOp.del (infoKeyL st.key)]
       else [BOp.put (infoKeyL st.key) (infoValue start2 end2)])
    match writeBatch st.store fail batch with
    | (s2, none) => ({ st with store := s2, start := start2, endc := end2 }, some v, none)
    | (s2, some e) => ({ st with store := s2 }, some v, some e)

/-- Deletions issued by the `TrimLeft` loop, starting at `start`. -/
def trimDels (key : Bytes) : Int → Nat → List BOp
  | _, 0 => []
  | start, d + 1 => BOp.del (idxKey key start) :: trimDels key (start + 1) d

/-- `LevelList.TrimLeft`: deletes up to `count` elements from the left
in one batch with the info-key update; the returned removed-element
count `n` is never assigned in the source and is always `0`. -/
def trimLeftS (st : LState) (fail : Bool) (count : Nat) : LState × Nat :=
  if lenI st = 0 then (st, 0)
  else
    let d : Nat := min count (lenI st).toNat
    let start1 := st.start + d
    let shouldReset := st.endc < start1
    let start2 : Int := if shouldReset then 0 else start1
    let end2 : Int := if shouldReset then -1 else st.endc
    let batch := trimDels st.key st.start d ++
      (if shouldReset then [BOp.del (infoKeyL st.key)]
       else [BOp.put (infoKeyL st.key) (infoValue start2 end2)])
    match writeBatch st.store fail batch with
    | (s2, none) => ({ st with store := s2, start := start2, endc := end2 }, 0)
    | (s2, some _) => ({ st with store := s2 }, 0)

/-- `LevelList.Index`: out of range is "no element, no error";
otherwise a point read at cursor `start + i`. -/
def indexS (st : LState) (i : Int) : Option (Option Bytes) × Option Unit :=
  if i < 0 ∨ lenI st ≤ i then (none, none)
  else (some (storeGet st.store (idxKey st.key (st.start + i))), none)

/-- `LevelList.BeginTransaction`: set the flag, never touch the engine. -/
def beginS (st : LState) : LState :=
  if st.inTransaction then st else { st with inTransaction := true }

/-- `LevelList.Commit`: without an open transaction, do nothing;
otherwise write (or, if empty, delete) the info key once and clear the
flag.  The direct `Put`/`Delete` error is discarded by the source. -/
def commitS (st : LState) : LState :=
  if ¬st.inTransaction then st
  else
    let s2 := if lenI st = 0 then storeDel st.store (infoKeyL st.key)
              else storePut st.store (infoKeyL st.key) (infoValue st.start st.endc)
    { st with store := s2, inTransaction := false }

/-! ### Functional deque (the spec side of the list claims) -/

inductive LOp where
  | lpush (v : Bytes)
  | rpush (v : Bytes)
  | lpop
  | rpop
deriving DecidableEq

/-- Run one operation; pop operations also report their result. -/
def lstep (st : LState) : LOp → LState × Option (Option (Option Bytes))
  | .lpush v => ((lpushS st false [v]).1, none)
  | .rpush v => ((rpushS st false [v]).1, none)
  | .lpop => ((lpopS st false).1, some (lpopS st false).2.1)
  | .rpop => ((rpopS st false).1, some (rpopS st false).2.1)

def lrun (st : LState) (ops : List LOp) : LState :=
  ops.foldl (fun s op => (lstep s op).1) st

/-- The popped-element results of a run, one entry per pop operation. -/
def lrunTrace (st : LState) : List LOp → List (Option (Option Bytes))
  | [] => []
  | op :: rest =>
    match lstep st op with
    | (st2, none) => lrunTrace st2 rest
    | (st2, some r) => r :: lrunTrace st2 rest

/-- One step of the ideal deque. -/
def dstep (xs : List Bytes) : LOp → List Bytes
  | .lpush v => v :: xs
  | .rpush v => xs ++ [v]
  | .lpop => xs.tail
  | .rpop => xs.dropLast

def dequeRun (xs : List Bytes) (ops : List LOp) : List Bytes :=
  ops.foldl dstep xs

/-- Ideal pop result of one operation. -/
def dpopRes (xs : List Bytes) : LOp → Option (Option (Option Bytes))
  | .lpush _ => none
  | .rpush _ => none
  | .lpop => some (xs.head?.map some)
  | .rpop => some (xs.getLast?.map some)

def dequeTrace (xs : List Bytes) : List LOp → List (Option (Option Bytes))
  | [] => []
  | op :: rest =>
    match dpopRes xs op with
    | none => dequeTrace (dstep xs op) rest
    | some r => r :: dequeTrace (dstep xs op) rest

/-- Refinement invariant: the cursor window matches the ideal deque
`xs`, and every window cursor carries the corresponding element. -/
def LInv (st : LState) (xs : List Bytes) : Prop :=
  st.start ≤ st.endc + 1 ∧
  lenI st = xs.length ∧
  ∀ j : Nat, ∀ hj : j < xs.length,
    storeGet st.store (idxKey st.key (st.start + j)) = some xs[j]

theorem LInv_linit (key : Bytes) : LInv (linit key) [] := by
  refine ⟨by simp [linit], by simp [linit, lenI], ?_⟩
  intro j hj
  simp at hj

/-- The key a batch operation touches. -/
def opKey : BOp → Bytes
  | .put k _ => k
  | .del k => k

theorem batchEff_none_of_untouched {q : Bytes} {b : List BOp}
    (h : ∀ op ∈ b, opKey op ≠ q) : batchEff q b = none := by
  induction b with
  | nil => rfl
  | cons op rest ih =>
    have hop := h op (List.mem_cons_self op rest)
    have hrest : ∀ o ∈ rest, opKey o ≠ q :=
      fun o ho => h o (List.mem_cons_of_mem op ho)
    cases op with
    | put k v =>
      have hk : k ≠ q := hop
      rw [batchEff, List.foldl_cons, effStep_put, if_neg hk]
      exact ih hrest
    | del k =>
      have hk : k ≠ q := hop
      rw [batchEff, List.foldl_cons, effStep_del, if_neg hk]
      exact ih hrest

theorem storeGet_applyBatch_untouched {s : Store} {b : List BOp} {q : Bytes}
    (h : ∀ op ∈ b, opKey op ≠ q) :
    storeGet (applyBatch s b) q = storeGet s q := by
  rw [storeGet_applyBatch, batchEff_none_of_untouched h]

theorem mem_lpushOps {key : Bytes} :
    ∀ {values : List Bytes} {start : Int} {op : BOp},
      op ∈ lpushOps key start values →
      ∃ (j : Nat) (v : Bytes), values.get? j = some v ∧
        op = .put (idxKey key (start - j - 1)) v := by
  intro values
  induction values with
  | nil => intro start op h; simp [lpushOps] at h
  | cons v vs ih =>
    intro start op h
    rw [lpushOps] at h
    rcases List.mem_cons.1 h with h1 | h1
    · exact ⟨0, v, rfl, by simpa using h1⟩
    · rcases ih h1 with ⟨j, w, hj, hop⟩
      refine ⟨j + 1, w, by simpa using hj, ?_⟩
      rw [hop]
      congr 2
      push_cast
      ring

theorem mem_rpushOps {key : Bytes} :
    ∀ {values : List Bytes} {endc : Int} {op : BOp},
      op ∈ rpushOps key endc values →
      ∃ (j : Nat) (v : Bytes), values.get? j = some v ∧
        op = .put (idxKey key (endc + j + 1)) v := by
  intro values
  induction values with
  | nil => intro endc op h; simp [rpushOps] at h
  | cons v vs ih =>
    intro endc op h
    rw [rpushOps] at h
    rcases List.mem_cons.1 h with h1 | h1
    · exact ⟨0, v, rfl, by simpa using h1⟩
    · rcases ih h1 with ⟨j, w, hj, hop⟩
      refine ⟨j + 1, w, by simpa using hj, ?_⟩
      rw [hop]
      congr 2
      push_cast
      ring

theorem lpushOps_eff {key : Bytes} :
    ∀ (values : List Bytes) (start : Int) (j : Nat) (hj : j < values.length),
      batchEff (idxKey key (start - j - 1)) (lpushOps key start values)
        = some (some values[j]) := by
  intro values
  induction values with
  | nil => intro start j hj; simp at hj
  | cons v vs ih =>
    intro start j hj
    cases j with
    | zero =>
      rw [lpushOps]
      have h0 : (start - (0 : Nat) - 1) = start - 1 := by push_cast; ring
      rw [h0]
      rw [batchEff, List.foldl_cons, effStep_put, if_pos rfl]
      rw [foldl_effStep_some]
      have hnone : batchEff (idxKey key (start - 1)) (lpushOps key (start - 1) vs)
          = none := by
        apply batchEff_none_of_untouched
        intro op hop
        rcases mem_lpushOps hop with ⟨t, w, ht, hopeq⟩
        rw [hopeq]
        intro hc
        have := idxKey_inj (hc : idxKey key (start - 1 - t - 1) = idxKey key (start - 1))
        omega
      rw [hnone]
      simp
    | succ t =>
      rw [lpushOps]
      have hne : idxKey key (start - 1) ≠ idxKey key (start - (t + 1 : Nat) - 1) := by
        intro hc
        have := idxKey_inj hc
        push_cast at this
        omega
      rw [batchEff, List.foldl_cons, effStep_put, if_neg hne]
      have harg : (start - (t + 1 : Nat) - 1) = (start - 1) - t - 1 := by
        push_cast; ring
      rw [harg]
      have := ih (start - 1) t (by simpa using Nat.lt_of_succ_lt_succ hj)
      rw [show batchEff (idxKey key (start - 1 - t - 1)) (lpushOps key (start - 1) vs)
            = List.foldl (effStep (idxKey key (start - 1 - t - 1)))
                none (lpushOps key (start - 1) vs) from rfl] at this
      rw [this]
      simp

theorem rpushOps_eff {key : Bytes} :
    ∀ (values : List Bytes) (endc : Int) (j : Nat) (hj : j < values.length),
      batchEff (idxKey key (endc + j + 1)) (rpushOps key endc values)
        = some (some values[j]) := by
  intro values
  induction values with
  | nil => intro endc j hj; simp at hj
  | cons v vs ih =>
    intro endc j hj
    cases j with
    | zero =>
      rw [rpushOps]
      have h0 : (endc + (0 : Nat) + 1) = endc + 1 := by push_cast; ring
      rw [h0]
      rw [batchEff, List.foldl_cons, effStep_put, if_pos rfl]
      rw [foldl_effStep_some]
      have hnone : batchEff (idxKey key (endc + 1)) (rpushOps key (endc + 1) vs)
          = none := by
        apply batchEff_none_of_untouched
        intro op hop
        rcases mem_rpushOps hop with ⟨t, w, ht, hopeq⟩
        rw [hopeq]
        intro hc
        have := idxKey_inj (hc : idxKey key (endc + 1 + t + 1) = idxKey key (endc + 1))
        omega
      rw [hnone]
      simp
    | succ t =>
      rw [rpushOps]
      have hne : idxKey key (endc + 1) ≠ idxKey key (endc + (t + 1 : Nat) + 1) := by
        intro hc
        have := idxKey_inj hc
        push_cast at this
        omega
      rw [batchEff, List.foldl_cons, effStep_put, if_neg hne]
      have harg : (endc + (t + 1 : Nat) + 1) = (endc + 1) + t + 1 := by
        push_cast; ring
      rw [harg]
      have := ih (endc + 1) t (by simpa using Nat.lt_of_succ_lt_succ hj)
      rw [show batchEff (idxKey key (endc + 1 + t + 1)) (rpushOps key (endc + 1) vs)
            = List.foldl (effStep (idxKey key (endc + 1 + t + 1)))
                none (rpushOps key (endc + 1) vs) from rfl] at this
      rw [this]
      simp

theorem batchEff_append (q : Bytes) (b1 b2 : List BOp) :
    batchEff q (b1 ++ b2) =
      match batchEff q b2 with
      | none => batchEff q b1
      | some r => some r := by
  unfold batchEff
  rw [List.foldl_append]
  cases h1 : List.foldl (effStep q) none b1 with
  | none =>
    cases h2 : List.foldl (effStep q) none b2 with
    | none => rfl
    | some r => rfl
  | some x =>
    rw [foldl_effStep_some]
    unfold batchEff
    cases h2 : List.foldl (effStep q) none b2 with
    | none => rfl
    | some r => rfl

theorem lpushS_false (st : LState) (values : List Bytes) :
    lpushS st false values =
      ({ st with
          store := applyBatch st.store (lpushOps st.key st.start values ++
            (if st.inTransaction then []
             else [BOp.put (infoKeyL st.key)
                     (infoValue (st.start - values.length) st.endc)])),
          start := st.start - values.length }, none) := rfl

theorem rpushS_false (st : LState) (values : List Bytes) :
    rpushS st false values =
      ({ st with
          store := applyBatch st.store (rpushOps st.key st.endc values ++
            (if st.inTransaction then []
             else [BOp.put (infoKeyL st.key)
                     (infoValue st.start (st.endc + values.length))])),
          endc := st.endc + values.length }, none) := rfl

/-- Info-key puts (or nothing, inside a transaction) never touch an
element key. -/
theorem batchEff_idx_info (st : LState) (w : Bytes) (i : Int) :
    batchEff (idxKey st.key i)
      (if st.inTransaction then []
       else [BOp.put (infoKeyL st.key) w]) = none := by
  apply batchEff_none_of_untouched
  intro op hop
  split at hop
  · simp at hop
  · simp only [List.mem_singleton] at hop
    subst hop
    exact fun hc => infoKeyL_ne_idxKey st.key i hc

theorem lpushS_store_elem (st : LState) (values : List Bytes)
    (j : Nat) (hj : j < values.length) (i : Int)
    (hi : i = st.start - j - 1) :
    storeGet ((lpushS st false values).1).store
        (idxKey st.key i) = some values[j] := by
  subst hi
  rw [lpushS_false]
  show storeGet (applyBatch st.store _) _ = _
  rw [storeGet_applyBatch, batchEff_append, batchEff_idx_info,
    lpushOps_eff values st.start j hj]

theorem lpushS_store_oldidx (st : LState) (values : List Bytes) (i : Int)
    (hne : ∀ j : Nat, j < values.length → i ≠ st.start - j - 1) :
    storeGet ((lpushS st false values).1).store (idxKey st.key i)
      = storeGet st.store (idxKey st.key i) := by
  rw [lpushS_false]
  show storeGet (applyBatch st.store _) _ = _
  apply storeGet_applyBatch_untouched
  intro op hop
  rcases List.mem_append.1 hop with h1 | h1
  · rcases mem_lpushOps h1 with ⟨j, w, hjw, hopeq⟩
    subst hopeq
    have hjlt : j < values.length := by
      by_contra hge
      rw [List.get?_eq_none.2 (by omega)] at hjw
      cases hjw
    show idxKey st.key (st.start - j - 1) ≠ idxKey st.key i
    intro hc
    exact hne j hjlt (idxKey_inj hc).symm
  · split at h1
    · simp at h1
    · simp only [List.mem_singleton] at h1
      subst h1
      show infoKeyL st.key ≠ idxKey st.key i
      exact infoKeyL_ne_idxKey st.key i

theorem rpushS_store_elem (st : LState) (values : List Bytes)
    (j : Nat) (hj : j < values.length) (i : Int)
    (hi : i = st.endc + j + 1) :
    storeGet ((rpushS st false values).1).store
        (idxKey st.key i) = some values[j] := by
  subst hi
  rw [rpushS_false]
  show storeGet (applyBatch st.store _) _ = _
  rw [storeGet_applyBatch, batchEff_append, batchEff_idx_info,
    rpushOps_eff values st.endc j hj]

theorem rpushS_store_oldidx (st : LState) (values : List Bytes) (i : Int)
    (hne : ∀ j : Nat, j < values.length → i ≠ st.endc + j + 1) :
    storeGet ((rpushS st false values).1).store (idxKey st.key i)
      = storeGet st.store (idxKey st.key i) := by
  rw [rpushS_false]
  show storeGet (applyBatch st.store _) _ = _
  apply storeGet_applyBatch_untouched
  intro op hop
  rcases List.mem_append.1 hop with h1 | h1
  · rcases mem_rpushOps h1 with ⟨j, w, hjw, hopeq⟩
    subst hopeq
    have hjlt : j < values.length := by
      by_contra hge
      rw [List.get?_eq_none.2 (by omega)] at hjw
      cases hjw
    show idxKey st.key (st.endc + j + 1) ≠ idxKey st.key i
    intro hc
    exact hne j hjlt (idxKey_inj hc).symm
  · split at h1
    · simp at h1
    · simp only [List.mem_singleton] at h1
      subst h1
      show infoKeyL st.key ≠ idxKey st.key i
      exact infoKeyL_ne_idxKey st.key i

theorem LInv_lpush {st : LState} {xs : List Bytes} {v : Bytes}
    (h : LInv st xs) : LInv (lpushS st false [v]).1 (v :: xs) := by
  obtain ⟨hse, hlen, helem⟩ := h
  refine ⟨?_, ?_, ?_⟩
  · show st.start - ↑([v] : List Bytes).length ≤ st.endc + 1
    simp only [List.length_singleton, List.length_cons, List.length_nil]
    omega
  · show lenI _ = ((v :: xs).length : Int)
    unfold lenI at hlen ⊢
    show (if st.endc < st.start - ↑([v] : List Bytes).length then (0 : Int)
          else st.endc - (st.start - ↑([v] : List Bytes).length) + 1) = _
    simp only [List.length_singleton, List.length_cons, List.length_nil]
    split_ifs at hlen ⊢ <;> push_cast at hlen ⊢ <;> omega
  · intro j hj
    show storeGet ((lpushS st false [v]).1).store
        (idxKey st.key (st.start - ↑([v] : List Bytes).length + j)) = _
    cases j with
    | zero =>
      exact lpushS_store_elem st [v] 0 (by simp) _
        (by simp only [List.length_singleton, List.length_cons, List.length_nil]
            push_cast; omega)
    | succ t =>
      have ht : t < xs.length := by
        simp only [List.length_cons] at hj
        omega
      rw [lpushS_store_oldidx st [v]
        (st.start - ↑([v] : List Bytes).length + ((t + 1 : Nat) : Int))
        (by
          intro j0 hj0 hc
          simp only [List.length_singleton, List.length_cons, List.length_nil] at hj0
          have hj00 : j0 = 0 := by omega
          subst hj00
          simp only [List.length_singleton, List.length_cons, List.length_nil] at hc
          push_cast at hc
          omega)]
      have hremap : st.start - ↑([v] : List Bytes).length + ((t + 1 : Nat) : Int)
          = st.start + (t : Int) := by
        simp only [List.length_singleton, List.length_cons, List.length_nil]
        push_cast
        ring
      rw [hremap]
      exact helem t ht

theorem LInv_rpush {st : LState} {xs : List Bytes} {v : Bytes}
    (h : LInv st xs) : LInv (rpushS st false [v]).1 (xs ++ [v]) := by
  obtain ⟨hse, hlen, helem⟩ := h
  have hwin : st.start + (xs.length : Int) = st.endc + 1 := by
    unfold lenI at hlen
    split_ifs at hlen <;> omega
  refine ⟨?_, ?_, ?_⟩
  · show st.start ≤ st.endc + ↑([v] : List Bytes).length + 1
    simp only [List.length_singleton, List.length_cons, List.length_nil]
    omega
  · show lenI _ = ((xs ++ [v]).length : Int)
    unfold lenI at hlen ⊢
    show (if st.endc + ↑([v] : List Bytes).length < st.start then (0 : Int)
          else st.endc + ↑([v] : List Bytes).length - st.start + 1) = _
    simp only [List.length_singleton, List.length_append, List.length_cons,
      List.length_nil]
    split_ifs at hlen ⊢ <;> push_cast at hlen ⊢ <;> omega
  · intro j hj
    show storeGet ((rpushS st false [v]).1).store
        (idxKey st.key (st.start + j)) = some (xs ++ [v])[j]
    simp only [List.length_append, List.length_singleton] at hj
    by_cases hlt : j < xs.length
    · rw [rpushS_store_oldidx st [v] (st.start + (j : Int))
        (by
          intro j0 hj0 hc
          simp only [List.length_singleton, List.length_cons, List.length_nil] at hj0
          have hj00 : j0 = 0 := by omega
          subst hj00
          push_cast at hc
          omega)]
      rw [helem j hlt]
      congr 1
      exact (List.getElem_append_left hlt).symm
    · have hje : j = xs.length := by omega
      subst hje
      have := rpushS_store_elem st [v] 0 (by simp) (st.start + (xs.length : Int))
        (by push_cast; omega)
      rw [this]
      congr 1
      rw [List.getElem_append_right (by omega)]
      simp

theorem lpopS_empty {st : LState} (h : lenI st = 0) (fail : Bool) :
    lpopS st fail = (st, none, none) := by
  unfold lpopS
  rw [if_pos h]

theorem rpopS_empty {st : LState} (h : lenI st = 0) (fail : Bool) :
    rpopS st fail = (st, none, none) := by
  unfold rpopS
  rw [if_pos h]

theorem lpopS_false_last {st : LState} (h1 : lenI st = 1) :
    lpopS st false =
      ({ st with
          store := applyBatch st.store
            [BOp.del (idxKey st.key st.start), BOp.del (infoKeyL st.key)],
          start := 0, endc := -1 },
       some (storeGet st.store (idxKey st.key st.start)), none) := by
  unfold lpopS writeBatch
  simp [h1]

theorem lpopS_false_more {st : LState} (h0 : ¬lenI st = 0) (h1 : ¬lenI st = 1) :
    lpopS st false =
      ({ st with
          store := applyBatch st.store
            [BOp.del (idxKey st.key st.start),
             BOp.put (infoKeyL st.key) (infoValue (st.start + 1) st.endc)],
          start := st.start + 1, endc := st.endc },
       some (storeGet st.store (idxKey st.key st.start)), none) := by
  unfold lpopS writeBatch
  simp [h0, h1]

theorem rpopS_false_last {st : LState} (h1 : lenI st = 1) :
    rpopS st false =
      ({ st with
          store := applyBatch st.store
            [BOp.del (idxKey st.key st.endc), BOp.del (infoKeyL st.key)],
          start := 0, endc := -1 },
       some (storeGet st.store (idxKey st.key st.endc)), none) := by
  unfold rpopS writeBatch
  simp [h1]

theorem rpopS_false_more {st : LState} (h0 : ¬lenI st = 0) (h1 : ¬lenI st = 1) :
    rpopS st false =
      ({ st with
          store := applyBatch st.store
            [BOp.del (idxKey st.key st.endc),
             BOp.put (infoKeyL st.key) (infoValue st.start (st.endc - 1))],
          start := st.start, endc := st.endc - 1 },
       some (storeGet st.store (idxKey st.key st.endc)), none) := by
  unfold rpopS writeBatch
  simp [h0, h1]

theorem LInv_lpop {st : LState} {xs : List Bytes} (h : LInv st xs) :
    LInv (lpopS st false).1 xs.tail ∧
    (lpopS st false).2.1 = xs.head?.map some := by
  obtain ⟨hse, hlen, helem⟩ := h
  cases xs with
  | nil =>
    have h0 : lenI st = 0 := by simpa using hlen
    rw [lpopS_empty h0]
    exact ⟨⟨hse, by simpa using h0, fun j hj => by simp at hj⟩, rfl⟩
  | cons a rest =>
    have hlen' : lenI st = (rest.length : Int) + 1 := by
      rw [hlen]; push_cast [List.length_cons]; ring
    have h0 : ¬lenI st = 0 := by omega
    have hhead : storeGet st.store (idxKey st.key st.start) = some a := by
      have := helem 0 (by simp)
      simpa using this
    by_cases h1 : lenI st = 1
    · have hrest : rest = [] := by
        have : (rest.length : Int) = 0 := by omega
        exact List.length_eq_zero.1 (by exact_mod_cast this)
      subst hrest
      rw [lpopS_false_last h1]
      refine ⟨⟨by simp, by simp [lenI], fun j hj => by simp at hj⟩, ?_⟩
      rw [hhead]
      rfl
    · rw [lpopS_false_more h0 h1]
      refine ⟨⟨?_, ?_, ?_⟩, ?_⟩
      · show st.start + 1 ≤ st.endc + 1
        unfold lenI at h1 hlen'
        split_ifs at hlen' <;> omega
      · show lenI _ = ((a :: rest).tail.length : Int)
        unfold lenI at hlen' ⊢
        show (if st.endc < st.start + 1 then (0 : Int)
              else st.endc - (st.start + 1) + 1) = _
        simp only [List.tail_cons]
        split_ifs at hlen' ⊢ <;> push_cast at hlen' ⊢ <;> omega
      · intro j hj
        simp only [List.tail_cons] at hj ⊢
        show storeGet (applyBatch st.store
            [BOp.del (idxKey st.key st.start),
             BOp.put (infoKeyL st.key) (infoValue (st.start + 1) st.endc)])
          (idxKey st.key (st.start + 1 + j)) = some rest[j]
        rw [storeGet_applyBatch_untouched (by
          intro op hop
          simp only [List.mem_cons, List.mem_singleton, List.not_mem_nil,
            or_false] at hop
          rcases hop with hop | hop <;> subst hop
          · show idxKey st.key st.start ≠ idxKey st.key (st.start + 1 + j)
            intro hc
            have := idxKey_inj hc
            omega
          · exact infoKeyL_ne_idxKey st.key _)]
        have := helem (j + 1) (by simp only [List.length_cons]; omega)
        rw [show st.start + 1 + (j : Int) = st.start + ((j + 1 : Nat) : Int)
          from by push_cast; ring]
        simpa using this
      · show some (storeGet st.store (idxKey st.key st.start)) = _
        rw [hhead]
        rfl

theorem LInv_rpop {st : LState} {xs : List Bytes} (h : LInv st xs) :
    LInv (rpopS st false).1 xs.dropLast ∧
    (rpopS st false).2.1 = xs.getLast?.map some := by
  obtain ⟨hse, hlen, helem⟩ := h
  rcases List.eq_nil_or_concat xs with rfl | ⟨ys, b, rfl⟩
  · have h0 : lenI st = 0 := by simpa using hlen
    rw [rpopS_empty h0]
    exact ⟨⟨hse, by simpa using h0, fun j hj => by simp at hj⟩, rfl⟩
  · simp only [List.concat_eq_append] at hlen helem ⊢
    have hlen' : lenI st = (ys.length : Int) + 1 := by
      rw [hlen]; push_cast [List.length_append, List.length_singleton]; ring
    have h0 : ¬lenI st = 0 := by omega
    have hwin : st.start + (ys.length : Int) = st.endc := by
      unfold lenI at hlen'
      split_ifs at hlen' <;> push_cast at hlen' <;> omega
    have hlast : storeGet st.store (idxKey st.key st.endc) = some b := by
      have hh := helem ys.length (by simp)
      rw [hwin] at hh
      simpa using hh
    have hdrop : (ys ++ [b]).dropLast = ys := List.dropLast_concat
    have hglast : (ys ++ [b]).getLast? = some b := List.getLast?_concat ys
    by_cases h1 : lenI st = 1
    · have hys : ys = [] := by
        have : (ys.length : Int) = 0 := by omega
        exact List.length_eq_zero.1 (by exact_mod_cast this)
      subst hys
      rw [rpopS_false_last h1]
      refine ⟨?_, ?_⟩
      · rw [hdrop]
        exact ⟨by simp, by simp [lenI], fun j hj => by simp at hj⟩
      · rw [hglast, hlast]
        rfl
    · rw [rpopS_false_more h0 h1]
      refine ⟨?_, ?_⟩
      · rw [hdrop]
        refine ⟨?_, ?_, ?_⟩
        · show st.start ≤ st.endc - 1 + 1
          omega
        · show lenI _ = (ys.length : Int)
          unfold lenI
          show (if st.endc - 1 < st.start then (0 : Int)
                else st.endc - 1 - st.start + 1) = _
          split_ifs <;> omega
        · intro j hj
          show storeGet (applyBatch st.store
              [BOp.del (idxKey st.key st.endc),
               BOp.put (infoKeyL st.key) (infoValue st.start (st.endc - 1))])
            (idxKey st.key (st.start + j)) = some ys[j]
          rw [storeGet_applyBatch_untouched (by
            intro op hop
            simp only [List.mem_cons, List.mem_singleton, List.not_mem_nil,
              or_false] at hop
            rcases hop with hop | hop <;> subst hop
            · show idxKey st.key st.endc ≠ idxKey st.key (st.start + j)
              intro hc
              have := idxKey_inj hc
              omega
            · exact infoKeyL_ne_idxKey st.key _)]
          have hh := helem j (by simp only [List.length_append,
            List.length_singleton]; omega)
          rw [hh]
          congr 1
          exact List.getElem_append_left hj
      · rw [hglast, hlast]
        rfl

/-- The LevelList refines the functional deque: running any operation
sequence preserves the invariant and produces the ideal pop trace. -/
theorem lrun_sim (ops : List LOp) :
    ∀ (st : LState) (xs : List Bytes), LInv st xs →
      LInv (lrun st ops) (dequeRun xs ops) ∧
      lrunTrace st ops = dequeTrace xs ops := by
  induction ops with
  | nil => intro st xs h; exact ⟨h, rfl⟩
  | cons op rest ih =>
    intro st xs h
    cases op with
    | lpush v =>
      have h2 := LInv_lpush (v := v) h
      have h3 := ih _ _ h2
      exact ⟨h3.1, h3.2⟩
    | rpush v =>
      have h2 := LInv_rpush (v := v) h
      have h3 := ih _ _ h2
      exact ⟨h3.1, h3.2⟩
    | lpop =>
      obtain ⟨hinv, hres⟩ := LInv_lpop h
      have h3 := ih _ _ hinv
      refine ⟨h3.1, ?_⟩
      show (lpopS st false).2.1 :: lrunTrace (lpopS st false).1 rest
          = (xs.head?.map some) :: dequeTrace xs.tail rest
      rw [hres, h3.2]
    | rpop =>
      obtain ⟨hinv, hres⟩ := LInv_rpop h
      have h3 := ih _ _ hinv
      refine ⟨h3.1, ?_⟩
      show (rpopS st false).2.1 :: lrunTrace (rpopS st false).1 rest
          = (xs.getLast?.map some) :: dequeTrace xs.dropLast rest
      rw [hres, h3.2]

/-! ### Pure deque facts -/

/-- Push operations. -/
def isPush : LOp → Bool
  | .lpush _ => true
  | .rpush _ => true
  | .lpop => false
  | .rpop => false

def countPush (ops : List LOp) : Nat := ops.countP isPush

def countPop (ops : List LOp) : Nat := ops.countP (fun op => !isPush op)

/-- No pop in the sequence ever fires on an empty deque. -/
def NoEmptyPop (ops : List LOp) : Prop :=
  ∀ pre op post, ops = pre ++ op :: post → isPush op = false →
    dequeRun [] pre ≠ []

theorem dstep_push_length (xs : List Bytes) {op : LOp}
    (h : isPush op = true) : (dstep xs op).length = xs.length + 1 := by
  cases op with
  | lpush v => simp [dstep]
  | rpush v => simp [dstep]
  | lpop => simp [isPush] at h
  | rpop => simp [isPush] at h

theorem dequeRun_append (xs : List Bytes) (l1 l2 : List LOp) :
    dequeRun xs (l1 ++ l2) = dequeRun (dequeRun xs l1) l2 := by
  unfold dequeRun
  exact List.foldl_append _ _ _ _

theorem dequeRun_length {ops : List LOp} (h : NoEmptyPop ops) :
    (dequeRun [] ops).length + countPop ops = countPush ops := by
  induction ops using List.reverseRecOn with
  | nil => rfl
  | append_singleton pre op ih =>
    have hpre : NoEmptyPop pre := by
      intro p o q heq hpop
      exact h p o (q ++ [op]) (by rw [heq]; simp) hpop
    have hstep : dequeRun [] (pre ++ [op]) = dstep (dequeRun [] pre) op :=
      dequeRun_append ([] : List Bytes) pre [op]
    have hih := ih hpre
    cases hp : isPush op with
    | true =>
      have hc1 : countPush (pre ++ [op]) = countPush pre + 1 := by
        unfold countPush
        rw [List.countP_append]
        simp [List.countP_cons, hp]
      have hc2 : countPop (pre ++ [op]) = countPop pre := by
        unfold countPop
        rw [List.countP_append]
        simp [List.countP_cons, hp]
      rw [hstep, dstep_push_length _ hp, hc1, hc2]
      omega
    | false =>
      have hne := h pre op [] rfl hp
      have hlen1 : 1 ≤ (dequeRun [] pre).length := List.length_pos.2 hne
      have hc1 : countPush (pre ++ [op]) = countPush pre := by
        unfold countPush
        rw [List.countP_append]
        simp [List.countP_cons, hp]
      have hc2 : countPop (pre ++ [op]) = countPop pre + 1 := by
        unfold countPop
        rw [List.countP_append]
        simp [List.countP_cons, hp]
      have hlen2 : (dstep (dequeRun [] pre) op).length
          = (dequeRun [] pre).length - 1 := by
        cases op with
        | lpush v => simp [isPush] at hp
        | rpush v => simp [isPush] at hp
        | lpop => simp [dstep]
        | rpop => simp [dstep]
      rw [hstep, hlen2, hc1, hc2]
      omega

theorem dequeRun_rpushes (vs : List Bytes) :
    ∀ xs : List Bytes, dequeRun xs (vs.map LOp.rpush) = xs ++ vs := by
  induction vs with
  | nil => intro xs; simp [dequeRun]
  | cons v vs ih =>
    intro xs
    show dequeRun (xs ++ [v]) (vs.map LOp.rpush) = xs ++ v :: vs
    rw [ih (xs ++ [v])]
    simp

theorem dequeRun_lpushes (vs : List Bytes) :
    ∀ xs : List Bytes, dequeRun xs (vs.map LOp.lpush) = vs.reverse ++ xs := by
  induction vs with
  | nil => intro xs; simp [dequeRun]
  | cons v vs ih =>
    intro xs
    show dequeRun (v :: xs) (vs.map LOp.lpush) = (v :: vs).reverse ++ xs
    rw [ih (v :: xs)]
    simp

theorem dequeTrace_append (xs : List Bytes) (l1 l2 : List LOp) :
    dequeTrace xs (l1 ++ l2) =
      dequeTrace xs l1 ++ dequeTrace (dequeRun xs l1) l2 := by
  induction l1 generalizing xs with
  | nil => rfl
  | cons op rest ih =>
    cases op <;>
      (simp only [List.cons_append, dequeTrace, dpopRes, dequeRun,
         List.foldl_cons, List.append_eq]
       rw [ih]
       rfl)

theorem dequeTrace_rpushes_nil (vs : List Bytes) :
    ∀ xs, dequeTrace xs (vs.map LOp.rpush) = [] := by
  induction vs with
  | nil => intro xs; rfl
  | cons v vs ih => intro xs; exact ih _

theorem dequeTrace_lpushes_nil (vs : List Bytes) :
    ∀ xs, dequeTrace xs (vs.map LOp.lpush) = [] := by
  induction vs with
  | nil => intro xs; rfl
  | cons v vs ih => intro xs; exact ih _

theorem dequeTrace_rpops :
    ∀ xs : List Bytes,
      dequeTrace xs (List.replicate xs.length LOp.rpop)
        = xs.reverse.map (fun v => some (some v)) := by
  intro xs
  induction xs using List.reverseRecOn with
  | nil => rfl
  | append_singleton ys b ih =>
    have hlen : (ys ++ [b]).length = ys.length + 1 := by simp
    rw [hlen, List.replicate_succ]
    show ((ys ++ [b]).getLast?.map some) ::
        dequeTrace (ys ++ [b]).dropLast (List.replicate ys.length LOp.rpop) = _
    rw [List.getLast?_concat, List.dropLast_concat, ih]
    simp

theorem dequeTrace_lpops :
    ∀ xs : List Bytes,
      dequeTrace xs (List.replicate xs.length LOp.lpop)
        = xs.map (fun v => some (some v)) := by
  intro xs
  induction xs with
  | nil => rfl
  | cons a rest ih =>
    rw [List.length_cons, List.replicate_succ]
    show ((a :: rest).head?.map some) ::
        dequeTrace (a :: rest).tail (List.replicate rest.length LOp.lpop) = _
    rw [List.head?_cons, List.tail_cons, ih]
    rfl

/-! ### List claims C6, C7, C8, C9, C10 -/

/-- **C6.**  For every list, pop from either end of an empty list
returns no element and no error (the state is untouched); popping the
last remaining element resets the window to the canonical empty state
`start=0, end=-1` and deletes the info key, batching the element
deletion with the info-key change; otherwise the boundary cursor
advances inward by one and the info key is rewritten in the same batch
as the element deletion; in both non-empty cases the popped element's
value is returned with no error. -/
theorem claim_C6_pop :
    (∀ (st : LState) (fail : Bool), lenI st = 0 →
      lpopS st fail = (st, none, none) ∧ rpopS st fail = (st, none, none))
  ∧ (∀ (st : LState) (v : Bytes), lenI st = 1 →
      storeGet st.store (idxKey st.key st.start) = some v →
      (lpopS st false).1.start = 0 ∧ (lpopS st false).1.endc = -1 ∧
      storeGet ((lpopS st false).1).store (infoKeyL st.key) = none ∧
      storeGet ((lpopS st false).1).store (idxKey st.key st.start) = none ∧
      (lpopS st false).2.1 = some (some v) ∧ (lpopS st false).2.2 = none)
  ∧ (∀ (st : LState) (v : Bytes), lenI st = 1 →
      storeGet st.store (idxKey st.key st.endc) = some v →
      (rpopS st false).1.start = 0 ∧ (rpopS st false).1.endc = -1 ∧
      storeGet ((rpopS st false).1).store (infoKeyL st.key) = none ∧
      storeGet ((rpopS st false).1).store (idxKey st.key st.endc) = none ∧
      (rpopS st false).2.1 = some (some v) ∧ (rpopS st false).2.2 = none)
  ∧ (∀ (st : LState) (v : Bytes), 1 < lenI st →
      storeGet st.store (idxKey st.key st.start) = some v →
      (lpopS st false).1.start = st.start + 1 ∧
      (lpopS st false).1.endc = st.endc ∧
      storeGet ((lpopS st false).1).store (infoKeyL st.key)
        = some (infoValue (st.start + 1) st.endc) ∧
      storeGet ((lpopS st false).1).store (idxKey st.key st.start) = none ∧
      (lpopS st false).2.1 = some (some v) ∧ (lpopS st false).2.2 = none)
  ∧ (∀ (st : LState) (v : Bytes), 1 < lenI st →
      storeGet st.store (idxKey st.key st.endc) = some v →
      (rpopS st false).1.start = st.start ∧
      (rpopS st false).1.endc = st.endc - 1 ∧
      storeGet ((rpopS st false).1).store (infoKeyL st.key)
        = some (infoValue st.start (st.endc - 1)) ∧
      storeGet ((rpopS st false).1).store (idxKey st.key st.endc) = none ∧
      (rpopS st false).2.1 = some (some v) ∧ (rpopS st false).2.2 = none) := by
  refine ⟨?_, ?_, ?_, ?_, ?_⟩
  · intro st fail h
    exact ⟨lpopS_empty h fail, rpopS_empty h fail⟩
  · intro st v h1 hv
    rw [lpopS_false_last h1]
    refine ⟨rfl, rfl, ?_, ?_, by rw [hv], rfl⟩
    · show storeGet (storeDel (storeDel st.store (idxKey st.key st.start))
          (infoKeyL st.key)) (infoKeyL st.key) = none
      rw [storeGet_del, if_pos rfl]
    · show storeGet (storeDel (storeDel st.store (idxKey st.key st.start))
          (infoKeyL st.key)) (idxKey st.key st.start) = none
      rw [storeGet_del, if_neg (infoKeyL_ne_idxKey st.key st.start),
        storeGet_del, if_pos rfl]
  · intro st v h1 hv
    rw [rpopS_false_last h1]
    refine ⟨rfl, rfl, ?_, ?_, by rw [hv], rfl⟩
    · show storeGet (storeDel (storeDel st.store (idxKey st.key st.endc))
          (infoKeyL st.key)) (infoKeyL st.key) = none
      rw [storeGet_del, if_pos rfl]
    · show storeGet (storeDel (storeDel st.store (idxKey st.key st.endc))
          (infoKeyL st.key)) (idxKey st.key st.endc) = none
      rw [storeGet_del, if_neg (infoKeyL_ne_idxKey st.key st.endc),
        storeGet_del, if_pos rfl]
  · intro st v hg hv
    have h0 : ¬lenI st = 0 := by omega
    have h1 : ¬lenI st = 1 := by omega
    rw [lpopS_false_more h0 h1]
    refine ⟨rfl, rfl, ?_, ?_, by rw [hv], rfl⟩
    · show storeGet (storePut (storeDel st.store (idxKey st.key st.start))
          (infoKeyL st.key) (infoValue (st.start + 1) st.endc))
          (infoKeyL st.key) = _
      rw [storeGet_put, if_pos rfl]
    · show storeGet (storePut (storeDel st.store (idxKey st.key st.start))
          (infoKeyL st.key) (infoValue (st.start + 1) st.endc))
          (idxKey st.key st.start) = none
      rw [storeGet_put, if_neg (infoKeyL_ne_idxKey st.key st.start),
        storeGet_del, if_pos rfl]
  · intro st v hg hv
    have h0 : ¬lenI st = 0 := by omega
    have h1 : ¬lenI st = 1 := by omega
    rw [rpopS_false_more h0 h1]
    refine ⟨rfl, rfl, ?_, ?_, by rw [hv], rfl⟩
    · show storeGet (storePut (storeDel st.store (idxKey st.key st.endc))
          (infoKeyL st.key) (infoValue st.start (st.endc - 1)))
          (infoKeyL st.key) = _
      rw [storeGet_put, if_pos rfl]
    · show storeGet (storePut (storeDel st.store (idxKey st.key st.endc))
          (infoKeyL st.key) (infoValue st.start (st.endc - 1)))
          (idxKey st.key st.endc) = none
      rw [storeGet_put, if_neg (infoKeyL_ne_idxKey st.key st.endc),
        storeGet_del, if_pos rfl]

/-- One-element test list: window `[5,5]`, element value `[42]`. -/
def testList1 : LState :=
  ⟨[97], 5, 5, false, [(idxKey [97] 5, [42])]⟩

/-- Two-element test list: window `[0,1]`, values `[1]`, `[2]`. -/
def testList2 : LState :=
  ⟨[97], 0, 1, false, [(idxKey [97] 0, [1]), (idxKey [97] 1, [2])]⟩

theorem claim_C6_pop_witness :
    lpopS (linit [97]) false = (linit [97], none, none) ∧
    (lpopS testList1 false).2.1 = some (some [42]) ∧
    storeGet ((rpopS testList2 false).1).store (infoKeyL [97])
      = some (infoValue 0 0) := by
  refine ⟨(claim_C6_pop.1 (linit [97]) false (by decide)).1, ?_, ?_⟩
  · exact (claim_C6_pop.2.1 testList1 [42] (by decide) (by decide)).2.2.2.2.1
  · exact (claim_C6_pop.2.2.2.2 testList2 [2] (by decide) (by decide)).2.2.1

/-- **C7 counterexample.**  The sequence "pop on empty, then one right
push" ends with length 1, but `pushes - pops` clamped at zero is 0:
the claimed length formula fails when a pop fires on an empty list
(the code treats it as a no-op, which the clamped subtraction does not
model). -/
theorem claim_C7_counterexample :
    lenI (lrun (linit [97]) [LOp.lpop, LOp.rpush [98]]) = 1 ∧
    countPush [LOp.lpop, LOp.rpush [98]] = 1 ∧
    countPop [LOp.lpop, LOp.rpush [98]] = 1 ∧
    ¬(lenI (lrun (linit [97]) [LOp.lpop, LOp.rpush [98]])
        = max 0 ((countPush [LOp.lpop, LOp.rpush [98]] : Int)
            - (countPop [LOp.lpop, LOp.rpush [98]] : Int))) := by
  refine ⟨by decide, by decide, by decide, by decide⟩

/-- **C7 (amended).**  For every sequence of single-value pushes and
pops on an initially empty list: provided no pop fires on an empty
list, the final length equals pushes minus pops (a pop on an empty
list is a no-op, so the clamped formula of the original claim fails);
and popped values come out in deque order: right-pushed values pop
from the right in reverse push order, left-pushed values pop from the
left in reverse push order. -/
theorem claim_C7_deque :
    (∀ (key : Bytes) (ops : List LOp), NoEmptyPop ops →
        lenI (lrun (linit key) ops)
          = (countPush ops : Int) - (countPop ops : Int))
  ∧ (∀ (key : Bytes) (vs : List Bytes),
        lrunTrace (linit key)
            (vs.map LOp.rpush ++ List.replicate vs.length LOp.rpop)
          = vs.reverse.map (fun v => some (some v)))
  ∧ (∀ (key : Bytes) (vs : List Bytes),
        lrunTrace (linit key)
            (vs.map LOp.lpush ++ List.replicate vs.length LOp.lpop)
          = vs.reverse.map (fun v => some (some v))) := by
  refine ⟨?_, ?_, ?_⟩
  · intro key ops h
    have hs := (lrun_sim ops (linit key) [] (LInv_linit key)).1
    have hlen := hs.2.1
    have hd := dequeRun_length h
    rw [hlen]
    push_cast
    omega
  · intro key vs
    have hs := (lrun_sim (vs.map LOp.rpush ++ List.replicate vs.length LOp.rpop)
      (linit key) [] (LInv_linit key)).2
    rw [hs, dequeTrace_append, dequeTrace_rpushes_nil, dequeRun_rpushes]
    rw [← dequeTrace_rpops vs]
    simp
  · intro key vs
    have hs := (lrun_sim (vs.map LOp.lpush ++ List.replicate vs.length LOp.lpop)
      (linit key) [] (LInv_linit key)).2
    rw [hs, dequeTrace_append, dequeTrace_lpushes_nil, dequeRun_lpushes]
    rw [List.append_nil, List.nil_append]
    rw [show vs.length = vs.reverse.length from (List.length_reverse vs).symm]
    rw [dequeTrace_lpops vs.reverse]

theorem claim_C7_deque_witness :
    lenI (lrun (linit [97]) [LOp.rpush [1]])
      = (countPush [LOp.rpush [1]] : Int) - (countPop [LOp.rpush [1]] : Int) ∧
    lrunTrace (linit [97])
        ([[1], [2]].map LOp.rpush ++ List.replicate 2 LOp.rpop)
      = [some (some [2]), some (some [1])] := by
  constructor
  · apply claim_C7_deque.1 [97] [LOp.rpush [1]]
    intro pre op post heq hpop
    rcases pre with _ | ⟨p1, pre⟩
    · injection heq with h1 h2
      rw [← h1] at hpop
      simp [isPush] at hpop
    · injection heq with h1 h2
      rcases pre with _ | ⟨p2, pre⟩ <;> simp at h2
  · have h := claim_C7_deque.2.1 [97] [[1], [2]]
    simpa using h

/-- **C8.**  For every list and integer `i`, `Index(i)` with `i < 0` or
`i ≥ length` returns no element and no error; for `i` in `[0, length)`
on a list built by any push/pop history from empty, the point read at
cursor `start + i` returns exactly the value a left-to-right replay of
that history (the functional deque) places at position `i`. -/
theorem claim_C8_index :
    (∀ (st : LState) (i : Int), (i < 0 ∨ lenI st ≤ i) →
        indexS st i = (none, none))
  ∧ (∀ (key : Bytes) (ops : List LOp) (j : Nat)
        (hj : j < (dequeRun [] ops).length),
        indexS (lrun (linit key) ops) (j : Int)
          = (some (some (dequeRun [] ops)[j]), none)) := by
  constructor
  · intro st i h
    unfold indexS
    rw [if_pos h]
  · intro key ops j hj
    obtain ⟨hse, hlen, helem⟩ := (lrun_sim ops (linit key) [] (LInv_linit key)).1
    unfold indexS
    rw [if_neg (by
      push_neg
      constructor
      · positivity
      · rw [hlen]; push_cast; omega)]
    rw [helem j hj]

theorem claim_C8_index_witness :
    indexS (linit [97]) 3 = (none, none) ∧
    indexS (lrun (linit [97]) [LOp.rpush [5]]) ((0 : Nat) : Int)
      = (some (some (dequeRun [] [LOp.rpush [5]])[0]), none) := by
  constructor
  · exact claim_C8_index.1 (linit [97]) 3 (by decide)
  · exact claim_C8_index.2 [97] [LOp.rpush [5]] 0 (by decide)

theorem commitS_flag (st : LState) : (commitS st).inTransaction = false := by
  unfold commitS
  split
  · rename_i h
    exact Bool.not_eq_true _ |>.mp h
  · rfl

/-- **C9.**  While a transaction is open, every push mutates the
in-memory cursor and writes the element keys but leaves the info key
unchanged in the engine; `Commit` then writes the info key (or deletes
it if the list is empty) exactly once, touching no other key, and a
second `Commit` — or a `BeginTransaction` — without a matching open
transaction has no effect on the engine state. -/
theorem claim_C9_transaction :
    (∀ (st : LState) (values : List Bytes), st.inTransaction = true →
      storeGet ((lpushS st false values).1).store (infoKeyL st.key)
          = storeGet st.store (infoKeyL st.key) ∧
      (lpushS st false values).1.start = st.start - values.length ∧
      ∀ (j : Nat) (hj : j < values.length),
        storeGet ((lpushS st false values).1).store
          (idxKey st.key (st.start - j - 1)) = some values[j])
  ∧ (∀ (st : LState) (values : List Bytes), st.inTransaction = true →
      storeGet ((rpushS st false values).1).store (infoKeyL st.key)
          = storeGet st.store (infoKeyL st.key) ∧
      (rpushS st false values).1.endc = st.endc + values.length ∧
      ∀ (j : Nat) (hj : j < values.length),
        storeGet ((rpushS st false values).1).store
          (idxKey st.key (st.endc + j + 1)) = some values[j])
  ∧ (∀ st : LState, st.inTransaction = true →
      storeGet (commitS st).store (infoKeyL st.key)
          = (if lenI st = 0 then none else some (infoValue st.start st.endc)) ∧
      (∀ q : Bytes, q ≠ infoKeyL st.key →
        storeGet (commitS st).store q = storeGet st.store q) ∧
      (commitS st).inTransaction = false)
  ∧ (∀ st : LState, st.inTransaction = false → commitS st = st)
  ∧ (∀ st : LState, commitS (commitS st) = commitS st)
  ∧ (∀ st : LState, (beginS st).store = st.store) := by
  refine ⟨?_, ?_, ?_, ?_, ?_, ?_⟩
  · intro st values htx
    refine ⟨?_, rfl, ?_⟩
    · rw [lpushS_false]
      show storeGet (applyBatch st.store _) _ = _
      apply storeGet_applyBatch_untouched
      intro op hop
      rcases List.mem_append.1 hop with h1 | h1
      · rcases mem_lpushOps h1 with ⟨j, w, hjw, hopeq⟩
        subst hopeq
        show idxKey st.key (st.start - j - 1) ≠ infoKeyL st.key
        exact fun hc => infoKeyL_ne_idxKey st.key _ hc.symm
      · simp [htx] at h1
    · intro j hj
      exact lpushS_store_elem st values j hj _ rfl
  · intro st values htx
    refine ⟨?_, rfl, ?_⟩
    · rw [rpushS_false]
      show storeGet (applyBatch st.store _) _ = _
      apply storeGet_applyBatch_untouched
      intro op hop
      rcases List.mem_append.1 hop with h1 | h1
      · rcases mem_rpushOps h1 with ⟨j, w, hjw, hopeq⟩
        subst hopeq
        show idxKey st.key (st.endc + j + 1) ≠ infoKeyL st.key
        exact fun hc => infoKeyL_ne_idxKey st.key _ hc.symm
      · simp [htx] at h1
    · intro j hj
      exact rpushS_store_elem st values j hj _ rfl
  · intro st htx
    refine ⟨?_, ?_, commitS_flag st⟩
    · unfold commitS
      rw [if_neg (by simp [htx])]
      by_cases h0 : lenI st = 0
      · rw [if_pos h0]
        show storeGet (storeDel st.store (infoKeyL st.key)) _ = _
        rw [storeGet_del, if_pos rfl, if_pos h0]
      · rw [if_neg h0]
        show storeGet (storePut st.store (infoKeyL st.key) _) _ = _
        rw [storeGet_put, if_pos rfl, if_neg h0]
    · intro q hq
      unfold commitS
      rw [if_neg (by simp [htx])]
      by_cases h0 : lenI st = 0
      · rw [if_pos h0]
        show storeGet (storeDel st.store (infoKeyL st.key)) q = _
        rw [storeGet_del, if_neg (fun hc => hq hc.symm)]
      · rw [if_neg h0]
        show storeGet (storePut st.store (infoKeyL st.key) _) q = _
        rw [storeGet_put, if_neg (fun hc => hq hc.symm)]
  · intro st hfl
    unfold commitS
    rw [if_pos (by simp [hfl])]
  · intro st
    have h2 : (commitS st).inTransaction = false := commitS_flag st
    have h1 : ∀ s : LState, s.inTransaction = false → commitS s = s := by
      intro s hfl
      unfold commitS
      rw [if_pos (by simp [hfl])]
    exact h1 _ h2
  · intro st
    unfold beginS
    split <;> rfl

/-- Open-transaction test list: same as `testList2` with the flag set. -/
def testListTx : LState :=
  ⟨[97], 0, 1, true, [(idxKey [97] 0, [1]), (idxKey [97] 1, [2])]⟩

theorem claim_C9_transaction_witness :
    storeGet ((rpushS testListTx false [[3]]).1).store (infoKeyL [97])
        = storeGet testListTx.store (infoKeyL [97]) ∧
    (commitS testListTx).inTransaction = false ∧
    commitS (commitS testListTx) = commitS testListTx := by
  refine ⟨(claim_C9_transaction.2.1 testListTx [[3]] (by decide)).1, ?_, ?_⟩
  · exact (claim_C9_transaction.2.2.1 testListTx (by decide)).2.2
  · exact claim_C9_transaction.2.2.2.2.1 testListTx

/-- **C10.**  `TrimLeft` never assigns its named return value `n`, so
for every list, failure mode and count it reports `0` removed
elements, regardless of how many element keys were actually deleted
from the left boundary. -/
theorem claim_C10_trimleft (st : LState) (fail : Bool) (count : Nat) :
    (trimLeftS st fail count).2 = 0 := by
  cases fail <;>
    (unfold trimLeftS writeBatch
     split
     · rfl
     · rfl)

/-! ### LevelZSet embedding (go_redis_server_list.go, LevelZSet part)

State: the `key` field, the cached `totalCount` (`-1` when not yet
initialized) and the engine store.  `Get`s never fail in this model;
`fail` injects a batch-write failure, whose error every `LevelZSet`
method discards (none of them has an error in its signature). -/

structure ZState where
  key : Bytes
  totalCount : Int
  store : Store
deriving DecidableEq

/-- `NewLevelZSet`: fresh instance with uninitialized cached count. -/
def znew (key : Bytes) (s : Store) : ZState := ⟨key, -1, s⟩

/-- `initOnce`: on first touch, load the cached count from the count
record (absent record means zero). -/
def zinit (st : ZState) : ZState :=
  if st.totalCount = -1 then
    match storeGet st.store (zsetKey st.key) with
    | some data => { st with totalCount := parseIntB data }
    | none => { st with totalCount := 0 }
  else st

/-- Batch operations contributed by one `(score, member)` pair of the
`Add` loop: the member-index put, the stale score-entry delete when
the member already exists (the oldscore `Get` runs against the
pre-call store, not the pending batch), and the new score-entry put. -/
def addOps (s : Store) (key : Bytes) (p : Bytes × Bytes) : List BOp :=
  [BOp.put (memberKey key p.2) p.1] ++
  (match storeGet s (memberKey key p.2) with
   | some old => [BOp.del (scoreKey key p.2 old)]
   | none => []) ++
  [BOp.put (scoreKey key p.2 p.1) []]

/-- One step of the `Add` loop: extend the batch, bump the cached
count when the member was absent. -/
def addStep (s : Store) (key : Bytes) (acc : List BOp × Int)
    (p : Bytes × Bytes) : List BOp × Int :=
  (acc.1 ++ addOps s key p,
   acc.2 + (match storeGet s (memberKey key p.2) with
            | some _ => 0
            | none => 1))

/-- `LevelZSet.Add` over `(score, member)` pairs: one batch covering
all pairs plus the count record, whose write error is discarded. -/
def zsAdd (st : ZState) (fail : Bool) (pairs : List (Bytes × Bytes)) :
    ZState × Nat :=
  let st1 := zinit st
  let bc := pairs.foldl (addStep st1.store st1.key) ([], st1.totalCount)
  let batch := bc.1 ++ [BOp.put (zsetKey st1.key) (intBytes bc.2)]
  ({ st1 with store := (writeBatch st1.store fail batch).1, totalCount := bc.2 },
   pairs.length)

/-- `LevelZSet.Score`: point lookup on the member index. -/
def zsScore (st : ZState) (member : Bytes) : Option Bytes :=
  storeGet st.store (memberKey st.key member)

/-- `LevelZSet.IncrBy`: read the current score, delete the stale
score entry if one existed, write the member entry and the new score
entry in one batch; neither the cached count nor the count record is
touched, and the write error is discarded. -/
def zsIncrBy (st : ZState) (fail : Bool) (member : Bytes) (incr : Int) :
    ZState × Bytes :=
  let st1 := zinit st
  match storeGet st1.store (memberKey st1.key member) with
  | none =>
    let newscore := intBytes incr
    let batch := [BOp.put (memberKey st1.key member) newscore,
                  BOp.put (scoreKey st1.key member newscore) []]
    ({ st1 with store := (writeBatch st1.store fail batch).1 }, newscore)
  | some old =>
    let newscore := intBytes (parseIntB old + incr)
    let batch := [BOp.del (scoreKey st1.key member old),
                  BOp.put (memberKey st1.key member) newscore,
                  BOp.put (scoreKey st1.key member newscore) []]
    ({ st1 with store := (writeBatch st1.store fail batch).1 }, newscore)

/-- One step of the `Remove` loop: skip absent members, otherwise
delete both index entries and count the removal. -/
def remStep (s : Store) (key : Bytes) (acc : List BOp × Nat)
    (member : Bytes) : List BOp × Nat :=
  match storeGet s (memberKey key member) with
  | none => acc
  | some score =>
    (acc.1 ++ [BOp.del (memberKey key member),
               BOp.del (scoreKey key member score)],
     acc.2 + 1)

/-- `LevelZSet.Remove`: delete both index entries per present member,
decrement the cached count, and delete the count record when the
count reaches zero (else rewrite it), all in one batch whose write
error is discarded. -/
def zsRemove (st : ZState) (fail : Bool) (members : List Bytes) :
    ZState × Nat :=
  let st1 := zinit st
  let bn := members.foldl (remStep st1.store st1.key) ([], 0)
  let cnt2 := st1.totalCount - bn.2
  let batch := bn.1 ++
    (if cnt2 = 0 then [BOp.del (zsetKey st1.key)]
     else [BOp.put (zsetKey st1.key) (intBytes cnt2)])
  ({ st1 with store := (writeBatch st1.store fail batch).1, totalCount := cnt2 },
   bn.2)

/-- `LevelZSet.Len`: lazily initialize, then return the cached count. -/
def zsLen (st : ZState) : ZState × Int :=
  let st1 := zinit st
  (st1, st1.totalCount)

/-- `LevelZSet.Drop`: if the cached count is zero, do nothing and
report success; otherwise delete every key the engine enumerates in
`[__key{key}, __key{key}·MAXBYTE]` — the `__key` family, not the
`__zset` family holding the member and score indices — plus the count
record, in one batch, and reset the cached count to zero. -/
def zsDrop (st : ZState) (fail : Bool) : ZState × Bool :=
  if st.totalCount = 0 then (st, true)
  else
    let lo := zdropMin st.key
    let hi := zdropMin st.key ++ [MAXB]
    let batch := (keysInRange st.store lo hi).map BOp.del ++
      [BOp.del (zsetKey st.key)]
    ({ st with store := (writeBatch st.store fail batch).1, totalCount := 0 },
     true)

/-! ### Sorted-set invariant -/

/-- Keys of the member-index family of this structure. -/
def memberQ (key : Bytes) : Bytes → Bool := fun q => isPre (memberStem key) q

/-- Number of member-index entries in the store. -/
def memberCount (st : ZState) : Nat := countKey (memberQ st.key) st.store

/-- Dual-index invariant: every member-index entry is '#'-free and has
exactly the matching score-index entry; every score-index entry
decodes to a `(member, score)` pair whose member-index entry carries
that very score. -/
def ZDual (key : Bytes) (s : Store) : Prop :=
  nodupKeys s ∧
  (∀ m sc : Bytes, storeGet s (memberKey key m) = some sc →
      sepFree m ∧ sepFree sc ∧
      storeGet s (scoreKey key m sc) = some []) ∧
  (∀ k v : Bytes, storeGet s k = some v →
      isPre (scoreStem key) k = true →
      ∃ m sc : Bytes, sepFree m ∧ sepFree sc ∧ k = scoreKey key m sc ∧
        storeGet s (memberKey key m) = some sc ∧ v = [])

/-- Full invariant: dual index plus count sync: the cached count
equals the number of members, and the count record is absent exactly
when that number is zero, holding the decimal count otherwise. -/
def ZWF (st : ZState) : Prop :=
  ZDual st.key st.store ∧
  st.totalCount = (memberCount st : Int) ∧
  storeGet st.store (zsetKey st.key) =
    (if memberCount st = 0 then none else some (intBytes st.totalCount))

/-! ### C1: LevelZSet.Drop enumerates the wrong key family -/

/-- Test sorted set `a` with one member `x` at score `"1"`, count 1. -/
def testZ : ZState :=
  ⟨[97], 1,
   [(memberKey [97] [120], [49]),
    (scoreKey [97] [120] [49], []),
    (zsetKey [97], intBytes 1)]⟩

/-- **C1 (code bug).**  `LevelZSet.Drop` enumerates the range
`[__key{key}, __key{key}·MAXBYTE]` — the info-key family — instead of
the `__zset{key}` family that holds the member and score indices.  On
a set with one member, drop deletes the count record and resets the
cached count, but both the member-index entry and the score-index
entry survive, and `Score` still answers afterwards; the spec says a
scan of both index families finds no entries. -/
theorem claim_C1_drop_bug :
    storeGet ((zsDrop testZ false).1).store (memberKey [97] [120])
        = some [49] ∧
    storeGet ((zsDrop testZ false).1).store (scoreKey [97] [120] [49])
        = some [] ∧
    storeGet ((zsDrop testZ false).1).store (zsetKey [97]) = none ∧
    (zsDrop testZ false).1.totalCount = 0 ∧
    zsScore (zsDrop testZ false).1 [120] = some [49] := by
  refine ⟨by decide, by decide, by decide, by decide, by decide⟩

/-! ### C3: only the list operations roll back and propagate -/

/-- **C3 counterexample.**  `LevelZSet.Add` on a failing batch write:
the store is untouched, yet the cached count was already incremented
and is not rolled back, and the method has no error result at all —
the caller sees `n = 1` as on success.  This falsifies the claim that
every operation propagates the engine error and rolls back
speculative counter mutations. -/
theorem claim_C3_counterexample :
    (zsAdd ⟨[97], 0, []⟩ true [([49], [120])]).1.totalCount = 1 ∧
    (zsAdd ⟨[97], 0, []⟩ true [([49], [120])]).1.store = [] ∧
    (zsAdd ⟨[97], 0, []⟩ true [([49], [120])]).2 = 1 ∧
    (zsAdd ⟨[97], 0, []⟩ true [([49], [120])]).1.totalCount
      = (zsAdd ⟨[97], 0, []⟩ false [([49], [120])]).1.totalCount := by
  refine ⟨by decide, by decide, by decide, by decide⟩

/-- **C3 (amended).**  On a failing batch write: the list push/pop
operations roll their cursors back to the pre-call values, leave the
store as it was, and return the error; `TrimLeft` rolls back but has
no error result; the sorted-set mutations (`Add`, `IncrBy`, `Remove`)
leave the store unchanged but have no error result, return exactly
what they return on success, and `Add`/`Remove` retain the
speculative cached-count mutation instead of rolling it back. -/
theorem claim_C3_rollback :
    (∀ (st : LState) (values : List Bytes),
      (lpushS st true values).1.start = st.start ∧
      (lpushS st true values).1.endc = st.endc ∧
      (lpushS st true values).1.store = st.store ∧
      (lpushS st true values).2 = some ())
  ∧ (∀ (st : LState) (values : List Bytes),
      (rpushS st true values).1.start = st.start ∧
      (rpushS st true values).1.endc = st.endc ∧
      (rpushS st true values).1.store = st.store ∧
      (rpushS st true values).2 = some ())
  ∧ (∀ st : LState, ¬lenI st = 0 →
      (lpopS st true).1.start = st.start ∧
      (lpopS st true).1.endc = st.endc ∧
      (lpopS st true).1.store = st.store ∧
      (lpopS st true).2.2 = some ())
  ∧ (∀ st : LState, ¬lenI st = 0 →
      (rpopS st true).1.start = st.start ∧
      (rpopS st true).1.endc = st.endc ∧
      (rpopS st true).1.store = st.store ∧
      (rpopS st true).2.2 = some ())
  ∧ (∀ (st : LState) (count : Nat),
      (trimLeftS st true count).1.start = st.start ∧
      (trimLeftS st true count).1.endc = st.endc ∧
      (trimLeftS st true count).1.store = st.store)
  ∧ (∀ (st : ZState) (pairs : List (Bytes × Bytes)),
      (zsAdd st true pairs).1.store = (zinit st).store ∧
      (zsAdd st true pairs).1.totalCount
        = (zsAdd st false pairs).1.totalCount ∧
      (zsAdd st true pairs).2 = (zsAdd st false pairs).2)
  ∧ (∀ (st : ZState) (members : List Bytes),
      (zsRemove st true members).1.store = (zinit st).store ∧
      (zsRemove st true members).1.totalCount
        = (zsRemove st false members).1.totalCount ∧
      (zsRemove st true members).2 = (zsRemove st false members).2)
  ∧ (∀ (st : ZState) (m : Bytes) (i : Int),
      (zsIncrBy st true m i).1.store = (zinit st).store ∧
      (zsIncrBy st true m i).2 = (zsIncrBy st false m i).2) := by
  refine ⟨?_, ?_, ?_, ?_, ?_, ?_, ?_, ?_⟩
  · intro st values
    exact ⟨rfl, rfl, rfl, rfl⟩
  · intro st values
    exact ⟨rfl, rfl, rfl, rfl⟩
  · intro st h0
    unfold lpopS
    rw [if_neg h0]
    exact ⟨rfl, rfl, rfl, rfl⟩
  · intro st h0
    unfold rpopS
    rw [if_neg h0]
    exact ⟨rfl, rfl, rfl, rfl⟩
  · intro st count
    unfold trimLeftS
    by_cases h0 : lenI st = 0
    · rw [if_pos h0]
      exact ⟨rfl, rfl, rfl⟩
    · rw [if_neg h0]
      exact ⟨rfl, rfl, rfl⟩
  · intro st pairs
    exact ⟨rfl, rfl, rfl⟩
  · intro st members
    exact ⟨rfl, rfl, rfl⟩
  · intro st m i
    cases h : storeGet (zinit st).store (memberKey (zinit st).key m) <;>
      (constructor <;> simp [zsIncrBy, h, writeBatch])

theorem claim_C3_rollback_witness :
    (lpopS testList1 true).1.start = testList1.start ∧
    (lpopS testList1 true).2.2 = some () ∧
    (trimLeftS testList2 true 1).1.store = testList2.store := by
  refine ⟨(claim_C3_rollback.2.2.1 testList1 (by decide)).1,
    (claim_C3_rollback.2.2.1 testList1 (by decide)).2.2.2,
    (claim_C3_rollback.2.2.2.2.1 testList2 1).2.2⟩

/-! ### Sorted-set base lemmas -/

theorem applyBatch_append (s : Store) (a b : List BOp) :
    applyBatch s (a ++ b) = applyBatch (applyBatch s a) b :=
  List.foldl_append _ _ _ _

theorem countKey_put_not {s : Store} {k v : Bytes} {Q : Bytes → Bool}
    (h : Q k = false) : countKey Q (storePut s k v) = countKey Q s := by
  unfold storePut
  unfold countKey
  rw [List.map_append, List.countP_append]
  have h1 : countKey Q (storeDel s k) = countKey Q s := countKey_del_not h
  unfold countKey at h1
  simp [h, h1]

theorem countKey_pos {s : Store} {k v : Bytes} {Q : Bytes → Bool}
    (hg : storeGet s k = some v) (hq : Q k = true) : 1 ≤ countKey Q s := by
  induction s with
  | nil => cases hg
  | cons p rest ih =>
    rcases p with ⟨pk, pv⟩
    unfold storeGet at hg
    unfold countKey
    simp only [List.map_cons, List.countP_cons]
    by_cases hp : pk = k
    · subst hp
      rw [hq]
      simp
    · rw [if_neg hp] at hg
      have := ih hg
      unfold countKey at this
      omega

theorem zinit_of_nonneg {st : ZState} (h : st.totalCount ≠ -1) :
    zinit st = st := by
  unfold zinit
  rw [if_neg h]

theorem isPre_scoreStem_memberKey (k m : Bytes) :
    isPre (scoreStem k) (memberKey k m) = false := by
  unfold memberKey memberStem scoreStem
  have h1 : zsetStem ++ [123] ++ k ++ [125, 115, 35]
      = (zsetStem ++ [123] ++ k) ++ [125, 115, 35] := by
    simp [List.append_assoc]
  have h2 : zsetStem ++ [123] ++ k ++ [125, 109, 35] ++ m
      = (zsetStem ++ [123] ++ k) ++ ([125, 109, 35] ++ m) := by
    simp [List.append_assoc]
  rw [h1, h2, isPre_cancel]
  simp [isPre]

theorem isPre_scoreStem_scoreKey (k m s : Bytes) :
    isPre (scoreStem k) (scoreKey k m s) = true := by
  unfold scoreKey
  have h : scoreStem k ++ s ++ [35] ++ m
      = scoreStem k ++ (s ++ [35] ++ m) := by
    simp [List.append_assoc]
  rw [h]
  exact isPre_refl_append _ _

theorem isPre_scoreStem_zsetKey (k : Bytes) :
    isPre (scoreStem k) (zsetKey k) = false := by
  simp [scoreStem, zsetKey, keyStem, zsetStem, isPre]

/-- `ZDual` only depends on the store through `storeGet` (plus key
uniqueness). -/
theorem ZDual_congr {key : Bytes} {s s' : Store}
    (hss : ∀ q, storeGet s' q = storeGet s q) (hnd : nodupKeys s')
    (h : ZDual key s) : ZDual key s' := by
  obtain ⟨_, h2, h3⟩ := h
  refine ⟨hnd, ?_, ?_⟩
  · intro m sc hm
    rw [hss] at hm
    obtain ⟨hm1, hm2, hm3⟩ := h2 m sc hm
    exact ⟨hm1, hm2, by rw [hss]; exact hm3⟩
  · intro k v hk hpre
    rw [hss] at hk
    obtain ⟨m, sc, q1, q2, q3, q4, q5⟩ := h3 k v hk hpre
    exact ⟨m, sc, q1, q2, q3, by rw [hss]; exact q4, q5⟩

/-- Putting or deleting the count record leaves the dual-index
invariant intact. -/
theorem ZDual_record {key : Bytes} {s : Store} (h : ZDual key s) :
    (∀ w, ZDual key (storePut s (zsetKey key) w)) ∧
    ZDual key (storeDel s (zsetKey key)) := by
  obtain ⟨hnd, h2, h3⟩ := h
  constructor
  · intro w
    refine ⟨nodupKeys_put hnd _ _, ?_, ?_⟩
    · intro m sc hm
      rw [storeGet_put, if_neg (zsetKey_ne_memberKey key m)] at hm
      obtain ⟨hm1, hm2, hm3⟩ := h2 m sc hm
      refine ⟨hm1, hm2, ?_⟩
      rw [storeGet_put, if_neg (zsetKey_ne_scoreKey key m sc)]
      exact hm3
    · intro k v hk hpre
      rw [storeGet_put] at hk
      by_cases hz : zsetKey key = k
      · rw [← hz] at hpre
        rw [isPre_scoreStem_zsetKey] at hpre
        cases hpre
      · rw [if_neg hz] at hk
        obtain ⟨m, sc, q1, q2, q3, q4, q5⟩ := h3 k v hk hpre
        refine ⟨m, sc, q1, q2, q3, ?_, q5⟩
        rw [storeGet_put, if_neg (zsetKey_ne_memberKey key m)]
        exact q4
  · refine ⟨nodupKeys_del hnd _, ?_, ?_⟩
    · intro m sc hm
      rw [storeGet_del, if_neg (zsetKey_ne_memberKey key m)] at hm
      obtain ⟨hm1, hm2, hm3⟩ := h2 m sc hm
      refine ⟨hm1, hm2, ?_⟩
      rw [storeGet_del, if_neg (zsetKey_ne_scoreKey key m sc)]
      exact hm3
    · intro k v hk hpre
      rw [storeGet_del] at hk
      by_cases hz : zsetKey key = k
      · rw [if_pos hz] at hk; cases hk
      · rw [if_neg hz] at hk
        obtain ⟨m, sc, q1, q2, q3, q4, q5⟩ := h3 k v hk hpre
        refine ⟨m, sc, q1, q2, q3, ?_, q5⟩
        rw [storeGet_del, if_neg (zsetKey_ne_memberKey key m)]
        exact q4

/-! ### Single-pair effect of `Add` -/

/-- Store effect of one `Add` pair taken alone. -/
def add1 (s : Store) (key : Bytes) (p : Bytes × Bytes) : Store :=
  applyBatch s (addOps s key p)

theorem add1_eq_absent {s : Store} {key : Bytes} {p : Bytes × Bytes}
    (h : storeGet s (memberKey key p.2) = none) :
    add1 s key p
      = storePut (storePut s (memberKey key p.2) p.1)
          (scoreKey key p.2 p.1) [] := by
  unfold add1 addOps
  rw [h]
  rfl

theorem add1_eq_present {s : Store} {key : Bytes} {p : Bytes × Bytes} {o : Bytes}
    (h : storeGet s (memberKey key p.2) = some o) :
    add1 s key p
      = storePut (storeDel (storePut s (memberKey key p.2) p.1)
          (scoreKey key p.2 o)) (scoreKey key p.2 p.1) [] := by
  unfold add1 addOps
  rw [h]
  rfl

theorem add1_nodup {s : Store} {key : Bytes} (p : Bytes × Bytes)
    (hnd : nodupKeys s) : nodupKeys (add1 s key p) :=
  nodupKeys_applyBatch hnd _

theorem add1_get_member_self (s : Store) (key : Bytes) (p : Bytes × Bytes) :
    storeGet (add1 s key p) (memberKey key p.2) = some p.1 := by
  cases hold : storeGet s (memberKey key p.2) with
  | none =>
    rw [add1_eq_absent hold, storeGet_put,
      if_neg (fun hc => memberKey_ne_scoreKey key p.2 p.2 p.1 hc.symm),
      storeGet_put, if_pos rfl]
  | some o =>
    rw [add1_eq_present hold, storeGet_put,
      if_neg (fun hc => memberKey_ne_scoreKey key p.2 p.2 p.1 hc.symm),
      storeGet_del,
      if_neg (fun hc => memberKey_ne_scoreKey key p.2 p.2 o hc.symm),
      storeGet_put, if_pos rfl]

theorem add1_get_member_other (s : Store) (key : Bytes) (p : Bytes × Bytes)
    (m' : Bytes) (hne : m' ≠ p.2) :
    storeGet (add1 s key p) (memberKey key m')
      = storeGet s (memberKey key m') := by
  have hput : memberKey key p.2 ≠ memberKey key m' :=
    fun hc => hne (memberKey_inj hc).symm
  cases hold : storeGet s (memberKey key p.2) with
  | none =>
    rw [add1_eq_absent hold, storeGet_put,
      if_neg (fun hc => memberKey_ne_scoreKey key m' p.2 p.1 hc.symm),
      storeGet_put, if_neg hput]
  | some o =>
    rw [add1_eq_present hold, storeGet_put,
      if_neg (fun hc => memberKey_ne_scoreKey key m' p.2 p.1 hc.symm),
      storeGet_del,
      if_neg (fun hc => memberKey_ne_scoreKey key m' p.2 o hc.symm),
      storeGet_put, if_neg hput]

theorem add1_get_record (s : Store) (key : Bytes) (p : Bytes × Bytes) :
    storeGet (add1 s key p) (zsetKey key) = storeGet s (zsetKey key) := by
  cases hold : storeGet s (memberKey key p.2) with
  | none =>
    rw [add1_eq_absent hold, storeGet_put,
      if_neg (fun hc => zsetKey_ne_scoreKey key p.2 p.1 hc.symm),
      storeGet_put, if_neg (fun hc => zsetKey_ne_memberKey key p.2 hc.symm)]
  | some o =>
    rw [add1_eq_present hold, storeGet_put,
      if_neg (fun hc => zsetKey_ne_scoreKey key p.2 p.1 hc.symm),
      storeGet_del, if_neg (fun hc => zsetKey_ne_scoreKey key p.2 o hc.symm),
      storeGet_put, if_neg (fun hc => zsetKey_ne_memberKey key p.2 hc.symm)]

theorem add1_get_score_new (s : Store) (key : Bytes) (p : Bytes × Bytes) :
    storeGet (add1 s key p) (scoreKey key p.2 p.1) = some [] := by
  cases hold : storeGet s (memberKey key p.2) with
  | none => rw [add1_eq_absent hold, storeGet_put, if_pos rfl]
  | some o => rw [add1_eq_present hold, storeGet_put, if_pos rfl]

theorem add1_get_score_other (s : Store) (key : Bytes) (p : Bytes × Bytes)
    (m₀ s₀ : Bytes) (hs0 : sepFree s₀)
    (hne : m₀ ≠ p.2) (hsc : sepFree p.1)
    (holdFree : ∀ o, storeGet s (memberKey key p.2) = some o → sepFree o) :
    storeGet (add1 s key p) (scoreKey key m₀ s₀)
      = storeGet s (scoreKey key m₀ s₀) := by
  have hnew : scoreKey key p.2 p.1 ≠ scoreKey key m₀ s₀ := by
    intro hc
    exact hne ((scoreKey_inj hsc hs0 hc).1).symm
  cases hold : storeGet s (memberKey key p.2) with
  | none =>
    rw [add1_eq_absent hold, storeGet_put, if_neg hnew, storeGet_put,
      if_neg (memberKey_ne_scoreKey key p.2 m₀ s₀)]
  | some o =>
    have hofree : sepFree o := holdFree o hold
    have hodel : scoreKey key p.2 o ≠ scoreKey key m₀ s₀ := by
      intro hc
      exact hne ((scoreKey_inj hofree hs0 hc).1).symm
    rw [add1_eq_present hold, storeGet_put, if_neg hnew, storeGet_del,
      if_neg hodel, storeGet_put,
      if_neg (memberKey_ne_scoreKey key p.2 m₀ s₀)]

theorem add1_count {s : Store} (key : Bytes) (p : Bytes × Bytes)
    (hnd : nodupKeys s) :
    countKey (memberQ key) (add1 s key p)
      = countKey (memberQ key) s
        + (match storeGet s (memberKey key p.2) with
           | some _ => 0
           | none => 1) := by
  have hqm : memberQ key (memberKey key p.2) = true :=
    isPre_memberStem_memberKey key p.2
  have hqsn : memberQ key (scoreKey key p.2 p.1) = false :=
    isPre_memberStem_scoreKey key p.2 p.1
  cases hold : storeGet s (memberKey key p.2) with
  | none =>
    rw [add1_eq_absent hold, countKey_put_not hqsn, countKey_put_absent hold,
      if_pos hqm]
  | some o =>
    have hqso : memberQ key (scoreKey key p.2 o) = false :=
      isPre_memberStem_scoreKey key p.2 o
    rw [add1_eq_present hold, countKey_put_not hqsn, countKey_del_not hqso,
      countKey_put_present hnd hold]
    rfl

/-- One `Add` pair preserves the dual-index invariant when score and
member are '#'-free. -/
theorem ZDual_add1 {key : Bytes} {s : Store} {p : Bytes × Bytes}
    (h : ZDual key s) (hm : sepFree p.2) (hsc : sepFree p.1) :
    ZDual key (add1 s key p) := by
  obtain ⟨hnd, h2, h3⟩ := h
  have holdFree : ∀ o, storeGet s (memberKey key p.2) = some o → sepFree o :=
    fun o ho => (h2 p.2 o ho).2.1
  refine ⟨add1_nodup p hnd, ?_, ?_⟩
  · intro m₀ s₀ hm₀
    by_cases hmm : m₀ = p.2
    · subst hmm
      rw [add1_get_member_self] at hm₀
      cases hm₀
      exact ⟨hm, hsc, add1_get_score_new s key p⟩
    · rw [add1_get_member_other s key p m₀ hmm] at hm₀
      obtain ⟨f1, f2, f3⟩ := h2 m₀ s₀ hm₀
      refine ⟨f1, f2, ?_⟩
      rw [add1_get_score_other s key p m₀ s₀ f2 hmm hsc holdFree]
      exact f3
  · intro k v hk hpre
    by_cases hknew : k = scoreKey key p.2 p.1
    · subst hknew
      rw [add1_get_score_new] at hk
      cases hk
      exact ⟨p.2, p.1, hm, hsc, rfl, add1_get_member_self s key p, rfl⟩
    · have hknew' : scoreKey key p.2 p.1 ≠ k := fun hc => hknew hc.symm
      cases hold : storeGet s (memberKey key p.2) with
      | none =>
        rw [add1_eq_absent hold, storeGet_put, if_neg hknew',
          storeGet_put] at hk
        by_cases hkm : memberKey key p.2 = k
        · rw [← hkm, isPre_scoreStem_memberKey] at hpre
          cases hpre
        · rw [if_neg hkm] at hk
          obtain ⟨m₀, s₀, f1, f2, f3, f4, f5⟩ := h3 k v hk hpre
          have hne : m₀ ≠ p.2 := by
            intro hc
            rw [hc, hold] at f4
            cases f4
          refine ⟨m₀, s₀, f1, f2, f3, ?_, f5⟩
          rw [add1_get_member_other s key p m₀ hne]
          exact f4
      | some o =>
        have hofree : sepFree o := holdFree o hold
        rw [add1_eq_present hold, storeGet_put, if_neg hknew',
          storeGet_del] at hk
        by_cases hko : scoreKey key p.2 o = k
        · rw [if_pos hko] at hk
          cases hk
        · rw [if_neg hko, storeGet_put] at hk
          by_cases hkm : memberKey key p.2 = k
          · rw [← hkm, isPre_scoreStem_memberKey] at hpre
            cases hpre
          · rw [if_neg hkm] at hk
            obtain ⟨m₀, s₀, f1, f2, f3, f4, f5⟩ := h3 k v hk hpre
            have hne : m₀ ≠ p.2 := by
              intro hc
              rw [hc, hold] at f4
              cases f4
              exact hko (by rw [f3, hc])
            refine ⟨m₀, s₀, f1, f2, f3, ?_, f5⟩
            rw [add1_get_member_other s key p m₀ hne]
            exact f4

/-! ### Variadic `Add` -/

/-- The element batch accumulated by the whole `Add` loop. -/
def addBatch (s : Store) (key : Bytes) : List (Bytes × Bytes) → List BOp
  | [] => []
  | p :: rest => addOps s key p ++ addBatch s key rest

/-- How many pairs hit an absent member (the count increment). -/
def addedN (s : Store) (key : Bytes) (P : List (Bytes × Bytes)) : Nat :=
  P.countP (fun p => (storeGet s (memberKey key p.2)).isNone)

theorem addFold_spec (s : Store) (key : Bytes) :
    ∀ (P : List (Bytes × Bytes)) (b0 : List BOp) (c0 : Int),
      P.foldl (addStep s key) (b0, c0)
        = (b0 ++ addBatch s key P, c0 + (addedN s key P : Int)) := by
  intro P
  induction P with
  | nil => intro b0 c0; simp [addBatch, addedN]
  | cons p rest ih =>
    intro b0 c0
    have hstep : (p :: rest).foldl (addStep s key) (b0, c0)
        = rest.foldl (addStep s key)
            (b0 ++ addOps s key p,
             c0 + (match storeGet s (memberKey key p.2) with
                   | some _ => (0 : Int) | none => 1)) := rfl
    rw [hstep, ih]
    have hab : addBatch s key (p :: rest)
        = addOps s key p ++ addBatch s key rest := rfl
    have haN : ((addedN s key (p :: rest) : Nat) : Int)
        = (match storeGet s (memberKey key p.2) with
           | some _ => (0 : Int) | none => 1) + (addedN s key rest : Int) := by
      unfold addedN
      rw [List.countP_cons]
      cases hsg : storeGet s (memberKey key p.2) with
      | none => simp; ring
      | some o => simp
    rw [hab, haN]
    simp only [Prod.mk.injEq]
    constructor
    · rw [List.append_assoc]
    · ring

theorem addBatch_congr (key : Bytes) :
    ∀ (P : List (Bytes × Bytes)) {s s' : Store},
      (∀ p ∈ P, storeGet s (memberKey key p.2)
        = storeGet s' (memberKey key p.2)) →
      addBatch s key P = addBatch s' key P := by
  intro P
  induction P with
  | nil => intro s s' _; rfl
  | cons p rest ih =>
    intro s s' h
    unfold addBatch
    rw [ih (fun q hq => h q (List.mem_cons_of_mem p hq))]
    congr 1
    unfold addOps
    rw [h p (List.mem_cons_self p rest)]

theorem addedN_congr (key : Bytes) :
    ∀ (P : List (Bytes × Bytes)) {s s' : Store},
      (∀ p ∈ P, storeGet s (memberKey key p.2)
        = storeGet s' (memberKey key p.2)) →
      addedN s key P = addedN s' key P := by
  intro P
  induction P with
  | nil => intro s s' _; rfl
  | cons p rest ih =>
    intro s s' h
    unfold addedN
    simp only [List.countP_cons]
    have h1 := ih (fun q hq => h q (List.mem_cons_of_mem p hq))
    unfold addedN at h1
    rw [h1, h p (List.mem_cons_self p rest)]

theorem addBatch_seq (key : Bytes) (p : Bytes × Bytes)
    (P : List (Bytes × Bytes)) (s : Store)
    (hdist : ∀ q ∈ P, q.2 ≠ p.2) :
    applyBatch s (addBatch s key (p :: P))
      = applyBatch (add1 s key p) (addBatch (add1 s key p) key P) := by
  show applyBatch s (addOps s key p ++ addBatch s key P) = _
  rw [applyBatch_append]
  show applyBatch (add1 s key p) (addBatch s key P) = _
  congr 1
  apply addBatch_congr
  intro q hq
  exact (add1_get_member_other s key p q.2 (hdist q hq)).symm

theorem mem_addBatch {s : Store} {key : Bytes} :
    ∀ {P : List (Bytes × Bytes)} {op : BOp}, op ∈ addBatch s key P →
      ∃ p ∈ P, opKey op = memberKey key p.2 ∨
        ∃ x, opKey op = scoreKey key p.2 x := by
  intro P
  induction P with
  | nil => intro op h; simp [addBatch] at h
  | cons p rest ih =>
    intro op h
    unfold addBatch at h
    rcases List.mem_append.1 h with h1 | h1
    · refine ⟨p, List.mem_cons_self p rest, ?_⟩
      unfold addOps at h1
      rcases List.mem_append.1 h1 with h2 | h2
      · rcases List.mem_append.1 h2 with h3 | h3
        · simp only [List.mem_singleton] at h3
          subst h3
          exact Or.inl rfl
        · cases hsg : storeGet s (memberKey key p.2) with
          | none => rw [hsg] at h3; simp at h3
          | some o =>
            rw [hsg] at h3
            simp only [List.mem_singleton] at h3
            subst h3
            exact Or.inr ⟨o, rfl⟩
      · simp only [List.mem_singleton] at h2
        subst h2
        exact Or.inr ⟨p.1, rfl⟩
    · rcases ih h1 with ⟨q, hq, hk⟩
      exact ⟨q, List.mem_cons_of_mem p hq, hk⟩

theorem addRun_member_stable (key : Bytes) (P : List (Bytes × Bytes))
    (s0 scur : Store) (m : Bytes) (hnm : ∀ q ∈ P, q.2 ≠ m) :
    storeGet (applyBatch scur (addBatch s0 key P)) (memberKey key m)
      = storeGet scur (memberKey key m) := by
  apply storeGet_applyBatch_untouched
  intro op hop
  rcases mem_addBatch hop with ⟨q, hq, hk | ⟨x, hk⟩⟩
  · rw [hk]
    exact fun hc => hnm q hq (memberKey_inj hc)
  · rw [hk]
    exact fun hc => memberKey_ne_scoreKey key m q.2 x hc.symm

theorem addRun_WF (key : Bytes) :
    ∀ (P : List (Bytes × Bytes)) (s : Store),
      ZDual key s →
      (∀ p ∈ P, sepFree p.1 ∧ sepFree p.2) →
      P.Pairwise (fun p q => p.2 ≠ q.2) →
      ZDual key (applyBatch s (addBatch s key P))
      ∧ countKey (memberQ key) (applyBatch s (addBatch s key P))
          = countKey (memberQ key) s + addedN s key P
      ∧ storeGet (applyBatch s (addBatch s key P)) (zsetKey key)
          = storeGet s (zsetKey key)
      ∧ ∀ p ∈ P, (storeGet (applyBatch s (addBatch s key P))
            (memberKey key p.2)).isSome = true := by
  intro P
  induction P with
  | nil =>
    intro s h _ _
    refine ⟨h, by simp [addBatch, addedN, applyBatch], rfl, by simp⟩
  | cons p rest ih =>
    intro s h hclean hdist
    have hcs := List.pairwise_cons.1 hdist
    have hdisthead : ∀ q ∈ rest, q.2 ≠ p.2 :=
      fun q hq => (hcs.1 q hq).symm
    have hpc := hclean p (List.mem_cons_self p rest)
    rw [addBatch_seq key p rest s hdisthead]
    have hd1 : ZDual key (add1 s key p) := ZDual_add1 h hpc.2 hpc.1
    have hih := ih (add1 s key p) hd1
      (fun q hq => hclean q (List.mem_cons_of_mem p hq)) hcs.2
    refine ⟨hih.1, ?_, ?_, ?_⟩
    · rw [hih.2.1]
      have hc1 := add1_count key p h.1
      have haN : addedN (add1 s key p) key rest = addedN s key rest :=
        (addedN_congr key rest
          (fun q hq => (add1_get_member_other s key p q.2
            (hdisthead q hq)).symm)).symm
      rw [hc1, haN]
      unfold addedN
      rw [List.countP_cons]
      cases hsg : storeGet s (memberKey key p.2) with
      | none => simp; omega
      | some o => simp
    · rw [hih.2.2.1, add1_get_record]
    · intro q hq
      rcases List.mem_cons.1 hq with rfl | hq'
      · rw [addRun_member_stable key rest (add1 s key q) (add1 s key q)
          q.2 hdisthead]
        rw [add1_get_member_self]
        rfl
      · exact hih.2.2.2 q hq'

theorem zsAdd_false_eq (st : ZState) (pairs : List (Bytes × Bytes))
    (hinit : zinit st = st) :
    (zsAdd st false pairs).1 =
      { st with
        store := storePut
          (applyBatch st.store (addBatch st.store st.key pairs))
          (zsetKey st.key)
          (intBytes (st.totalCount + (addedN st.store st.key pairs : Int))),
        totalCount := st.totalCount + (addedN st.store st.key pairs : Int) } := by
  simp only [zsAdd, hinit]
  rw [addFold_spec st.store st.key pairs [] st.totalCount]
  show ({ key := st.key,
          totalCount := st.totalCount + (addedN st.store st.key pairs : Int),
          store := applyBatch st.store
            (([] ++ addBatch st.store st.key pairs)
              ++ [BOp.put (zsetKey st.key)
                    (intBytes (st.totalCount
                      + (addedN st.store st.key pairs : Int)))]) } : ZState)
    = _
  rw [List.nil_append, applyBatch_append]
  rfl

/-- Variadic `Add` preserves the full invariant, for nonempty calls
with pairwise-distinct, '#'-free members and '#'-free scores. -/
theorem ZWF_zsAdd {st : ZState} {pairs : List (Bytes × Bytes)}
    (h : ZWF st) (hne : pairs ≠ [])
    (hclean : ∀ p ∈ pairs, sepFree p.1 ∧ sepFree p.2)
    (hdist : pairs.Pairwise (fun p q => p.2 ≠ q.2)) :
    ZWF (zsAdd st false pairs).1 := by
  obtain ⟨hd, hcnt, hrec⟩ := h
  have hinit : zinit st = st := zinit_of_nonneg (by rw [hcnt]; omega)
  have run := addRun_WF st.key pairs st.store hd hclean hdist
  rw [zsAdd_false_eq st pairs hinit]
  have hq0 : memberQ st.key (zsetKey st.key) = false :=
    isPre_memberStem_zsetKey st.key
  have hcount2 : countKey (memberQ st.key)
      (storePut (applyBatch st.store (addBatch st.store st.key pairs))
        (zsetKey st.key)
        (intBytes (st.totalCount + (addedN st.store st.key pairs : Int))))
      = countKey (memberQ st.key) st.store + addedN st.store st.key pairs := by
    rw [countKey_put_not hq0, run.2.1]
  have hpos : 1 ≤ countKey (memberQ st.key)
      (applyBatch st.store (addBatch st.store st.key pairs)) := by
    rcases pairs with _ | ⟨p0, rest⟩
    · exact absurd rfl hne
    · have hps := run.2.2.2 p0 (List.mem_cons_self p0 rest)
      rcases hv : storeGet (applyBatch st.store
          (addBatch st.store st.key (p0 :: rest)))
          (memberKey st.key p0.2) with _ | v
      · rw [hv] at hps; cases hps
      · exact countKey_pos hv (isPre_memberStem_memberKey st.key p0.2)
  have hpos2 : 1 ≤ countKey (memberQ st.key) st.store
      + addedN st.store st.key pairs := by
    rw [run.2.1] at hpos
    exact hpos
  refine ⟨(ZDual_record run.1).1 _, ?_, ?_⟩
  · show st.totalCount + (addedN st.store st.key pairs : Int)
      = (countKey (memberQ st.key)
          (storePut (applyBatch st.store (addBatch st.store st.key pairs))
            (zsetKey st.key)
            (intBytes (st.totalCount + (addedN st.store st.key pairs : Int))))
        : Int)
    rw [hcount2]
    unfold memberCount at hcnt
    push_cast
    omega
  · show storeGet
        (storePut (applyBatch st.store (addBatch st.store st.key pairs))
          (zsetKey st.key)
          (intBytes (st.totalCount + (addedN st.store st.key pairs : Int))))
        (zsetKey st.key)
      = if countKey (memberQ st.key)
          (storePut (applyBatch st.store (addBatch st.store st.key pairs))
            (zsetKey st.key)
            (intBytes (st.totalCount + (addedN st.store st.key pairs : Int))))
          = 0
        then none
        else some (intBytes
          (st.totalCount + (addedN st.store st.key pairs : Int)))
    rw [storeGet_put, if_pos rfl, hcount2, if_neg (by omega)]

/-! ### `IncrBy` -/

theorem zsIncrBy_false_absent {st : ZState} {m : Bytes} {incr : Int}
    (hinit : zinit st = st)
    (hold : storeGet st.store (memberKey st.key m) = none) :
    zsIncrBy st false m incr
      = ({ st with store := add1 st.store st.key (intBytes incr, m) },
         intBytes incr) := by
  simp only [zsIncrBy, hinit, hold]
  rw [add1_eq_absent (p := (intBytes incr, m)) hold]
  rfl

theorem zsIncrBy_false_present {st : ZState} {m : Bytes} {incr : Int}
    {o : Bytes} (hinit : zinit st = st)
    (hold : storeGet st.store (memberKey st.key m) = some o) :
    zsIncrBy st false m incr
      = ({ st with store := applyBatch st.store
                     [BOp.del (scoreKey st.key m o),
                      BOp.put (memberKey st.key m)
                        (intBytes (parseIntB o + incr)),
                      BOp.put (scoreKey st.key m
                        (intBytes (parseIntB o + incr))) []] },
         intBytes (parseIntB o + incr)) := by
  simp only [zsIncrBy, hinit, hold]
  rfl

/-- The `IncrBy` batch (delete stale score entry first) has the same
pointwise effect as the `Add` order (member put first). -/
theorem incr_present_pointwise (s : Store) (key m o ns : Bytes) (q : Bytes) :
    storeGet (applyBatch s
      [BOp.del (scoreKey key m o), BOp.put (memberKey key m) ns,
       BOp.put (scoreKey key m ns) []]) q
    = storeGet (storePut (storeDel (storePut s (memberKey key m) ns)
        (scoreKey key m o)) (scoreKey key m ns) []) q := by
  show storeGet (storePut (storePut (storeDel s (scoreKey key m o))
      (memberKey key m) ns) (scoreKey key m ns) []) q = _
  by_cases h1 : scoreKey key m ns = q
  · simp [storeGet_put, h1]
  · by_cases h2 : memberKey key m = q
    · have h3 : ¬(scoreKey key m o = q) := by
        rw [← h2]
        exact fun hc => memberKey_ne_scoreKey key m m o hc.symm
      simp [storeGet_put, storeGet_del, h1, h2, h3]
    · by_cases h3 : scoreKey key m o = q
      · simp [storeGet_put, storeGet_del, h1, h2, h3]
      · simp [storeGet_put, storeGet_del, h1, h2, h3]

/-- `IncrBy` preserves the dual-index invariant in a single batch,
deleting the stale score entry; it leaves both the cached count and
the count record untouched. -/
theorem ZIncr_spec {st : ZState} (m : Bytes) (incr : Int)
    (h : ZDual st.key st.store) (hm : sepFree m)
    (hinit : zinit st = st) :
    ZDual st.key (zsIncrBy st false m incr).1.store
    ∧ (zsIncrBy st false m incr).1.totalCount = st.totalCount
    ∧ storeGet (zsIncrBy st false m incr).1.store (zsetKey st.key)
        = storeGet st.store (zsetKey st.key)
    ∧ storeGet (zsIncrBy st false m incr).1.store (memberKey st.key m)
        = some (zsIncrBy st false m incr).2
    ∧ storeGet (zsIncrBy st false m incr).1.store
        (scoreKey st.key m (zsIncrBy st false m incr).2) = some [] := by
  cases hold : storeGet st.store (memberKey st.key m) with
  | none =>
    rw [zsIncrBy_false_absent hinit hold]
    have hdual := ZDual_add1 (p := (intBytes incr, m)) h hm
      (intBytes_sepFree incr)
    exact ⟨hdual, rfl, add1_get_record _ _ _,
      add1_get_member_self _ _ _, add1_get_score_new _ _ _⟩
  | some o =>
    rw [zsIncrBy_false_present hinit hold]
    have hpw := incr_present_pointwise st.store st.key m o
      (intBytes (parseIntB o + incr))
    have hadd1 : storePut (storeDel (storePut st.store
          (memberKey st.key m) (intBytes (parseIntB o + incr)))
          (scoreKey st.key m o))
          (scoreKey st.key m (intBytes (parseIntB o + incr))) []
        = add1 st.store st.key (intBytes (parseIntB o + incr), m) :=
      (add1_eq_present (p := (intBytes (parseIntB o + incr), m)) hold).symm
    have hpw2 : ∀ q, storeGet (applyBatch st.store
        [BOp.del (scoreKey st.key m o),
         BOp.put (memberKey st.key m) (intBytes (parseIntB o + incr)),
         BOp.put (scoreKey st.key m (intBytes (parseIntB o + incr))) []]) q
        = storeGet (add1 st.store st.key
            (intBytes (parseIntB o + incr), m)) q := by
      intro q
      rw [hpw q, hadd1]
    have hdual := ZDual_add1 (p := (intBytes (parseIntB o + incr), m)) h hm
      (intBytes_sepFree _)
    refine ⟨?_, rfl, ?_, ?_, ?_⟩
    · exact ZDual_congr hpw2 (nodupKeys_applyBatch h.1 _) hdual
    · rw [hpw2, add1_get_record]
    · rw [hpw2, add1_get_member_self]
    · rw [hpw2, add1_get_score_new]

/-! ### `Remove` -/

/-- Batch operations contributed by one member of the `Remove` loop:
nothing for an absent member, else deletion of both index entries
(the score is read from the pre-call store). -/
def remOps (s : Store) (key m : Bytes) : List BOp :=
  match storeGet s (memberKey key m) with
  | none => []
  | some sc => [BOp.del (memberKey key m), BOp.del (scoreKey key m sc)]

/-- Net store effect of removing one member. -/
def rem1 (s : Store) (key m : Bytes) : Store :=
  applyBatch s (remOps s key m)

/-- The accumulated `Remove` batch of a member list. -/
def remBatch (s : Store) (key : Bytes) : List Bytes → List BOp
  | [] => []
  | m :: rest => remOps s key m ++ remBatch s key rest

/-- How many members were present (the count decrement). -/
def remN (s : Store) (key : Bytes) (ms : List Bytes) : Nat :=
  ms.countP (fun m => (storeGet s (memberKey key m)).isSome)

theorem remFold_spec (s : Store) (key : Bytes) :
    ∀ (ms : List Bytes) (b0 : List BOp) (c0 : Nat),
      ms.foldl (remStep s key) (b0, c0)
        = (b0 ++ remBatch s key ms, c0 + remN s key ms) := by
  intro ms
  induction ms with
  | nil => intro b0 c0; simp [remBatch, remN]
  | cons m rest ih =>
    intro b0 c0
    have hrB : remBatch s key (m :: rest)
        = remOps s key m ++ remBatch s key rest := rfl
    have hrN : remN s key (m :: rest)
        = remN s key rest
          + (if (storeGet s (memberKey key m)).isSome then 1 else 0) := by
      unfold remN
      rw [List.countP_cons]
    cases hsg : storeGet s (memberKey key m) with
    | none =>
      have hstep : (m :: rest).foldl (remStep s key) (b0, c0)
          = rest.foldl (remStep s key) (b0, c0) := by
        show rest.foldl (remStep s key) (remStep s key (b0, c0) m) = _
        unfold remStep
        rw [hsg]
      rw [hstep, ih, hrB, hrN]
      unfold remOps
      rw [hsg]
      simp [hsg]
    | some sc =>
      have hstep : (m :: rest).foldl (remStep s key) (b0, c0)
          = rest.foldl (remStep s key)
              (b0 ++ [BOp.del (memberKey key m),
                      BOp.del (scoreKey key m sc)], c0 + 1) := by
        show rest.foldl (remStep s key) (remStep s key (b0, c0) m) = _
        unfold remStep
        rw [hsg]
      rw [hstep, ih, hrB, hrN]
      unfold remOps
      rw [hsg]
      simp only [Prod.mk.injEq]
      constructor
      · rw [List.append_assoc]
      · simp [hsg]
        omega

theorem rem1_eq_absent {s : Store} {key m : Bytes}
    (h : storeGet s (memberKey key m) = none) : rem1 s key m = s := by
  unfold rem1 remOps
  rw [h]
  rfl

theorem rem1_eq_present {s : Store} {key m sc : Bytes}
    (h : storeGet s (memberKey key m) = some sc) :
    rem1 s key m
      = storeDel (storeDel s (memberKey key m)) (scoreKey key m sc) := by
  unfold rem1 remOps
  rw [h]
  rfl

theorem rem1_get_member_self (s : Store) (key m : Bytes) :
    storeGet (rem1 s key m) (memberKey key m) = none := by
  cases h : storeGet s (memberKey key m) with
  | none => rw [rem1_eq_absent h, h]
  | some sc =>
    rw [rem1_eq_present h, storeGet_del,
      if_neg (fun hc => memberKey_ne_scoreKey key m m sc hc.symm),
      storeGet_del, if_pos rfl]

theorem rem1_get_member_other (s : Store) (key m m' : Bytes) (h : m' ≠ m) :
    storeGet (rem1 s key m) (memberKey key m')
      = storeGet s (memberKey key m') := by
  cases hsg : storeGet s (memberKey key m) with
  | none => rw [rem1_eq_absent hsg]
  | some sc =>
    rw [rem1_eq_present hsg, storeGet_del,
      if_neg (fun hc => memberKey_ne_scoreKey key m' m sc hc.symm),
      storeGet_del, if_neg (fun hc => h (memberKey_inj hc).symm)]

theorem rem1_get_record (s : Store) (key m : Bytes) :
    storeGet (rem1 s key m) (zsetKey key) = storeGet s (zsetKey key) := by
  cases hsg : storeGet s (memberKey key m) with
  | none => rw [rem1_eq_absent hsg]
  | some sc =>
    rw [rem1_eq_present hsg, storeGet_del,
      if_neg (fun hc => zsetKey_ne_scoreKey key m sc hc.symm),
      storeGet_del, if_neg (fun hc => zsetKey_ne_memberKey key m hc.symm)]

theorem rem1_count (key : Bytes) {s : Store} (m : Bytes)
    (hnd : nodupKeys s) :
    countKey (memberQ key) (rem1 s key m)
      + (if (storeGet s (memberKey key m)).isSome then 1 else 0)
      = countKey (memberQ key) s := by
  cases hsg : storeGet s (memberKey key m) with
  | none =>
    rw [rem1_eq_absent hsg]
    simp
  | some sc =>
    rw [rem1_eq_present hsg]
    rw [countKey_del_not
      (show memberQ key (scoreKey key m sc) = false from
        isPre_memberStem_scoreKey key m sc)]
    have h2 := countKey_del_present (Q := memberQ key) hnd hsg
    rw [show memberQ key (memberKey key m) = true from
      isPre_memberStem_memberKey key m] at h2
    simp only [if_true, Option.isSome_some] at h2 ⊢
    exact h2

theorem ZDual_rem1 {key : Bytes} {s : Store} (h : ZDual key s)
    (m : Bytes) : ZDual key (rem1 s key m) := by
  cases hsg : storeGet s (memberKey key m) with
  | none => rw [rem1_eq_absent hsg]; exact h
  | some sc =>
    obtain ⟨hnd, h2, h3⟩ := h
    obtain ⟨hfm, hfs, _⟩ := h2 m sc hsg
    rw [rem1_eq_present hsg]
    refine ⟨nodupKeys_del (nodupKeys_del hnd _) _, ?_, ?_⟩
    · intro m' sc' hm'
      rw [storeGet_del, storeGet_del] at hm'
      by_cases e1 : scoreKey key m sc = memberKey key m'
      · rw [if_pos e1] at hm'; cases hm'
      · rw [if_neg e1] at hm'
        by_cases e2 : memberKey key m = memberKey key m'
        · rw [if_pos e2] at hm'; cases hm'
        · rw [if_neg e2] at hm'
          obtain ⟨hf1, hf2, hsc⟩ := h2 m' sc' hm'
          refine ⟨hf1, hf2, ?_⟩
          have hn1 : ¬(scoreKey key m sc = scoreKey key m' sc') := by
            intro hc
            exact e2 (congrArg (memberKey key) (scoreKey_inj hfs hf2 hc).1)
          have hn2 : ¬(memberKey key m = scoreKey key m' sc') :=
            fun hc => memberKey_ne_scoreKey key m m' sc' hc
          rw [storeGet_del, if_neg hn1, storeGet_del, if_neg hn2, hsc]
    · intro k v hk hpre
      rw [storeGet_del, storeGet_del] at hk
      by_cases e1 : scoreKey key m sc = k
      · rw [if_pos e1] at hk; cases hk
      · rw [if_neg e1] at hk
        by_cases e2 : memberKey key m = k
        · rw [if_pos e2] at hk; cases hk
        · rw [if_neg e2] at hk
          obtain ⟨m', sc', hf1, hf2, hkey, hmem, hv⟩ := h3 k v hk hpre
          refine ⟨m', sc', hf1, hf2, hkey, ?_, hv⟩
          have hn2 : ¬(memberKey key m = memberKey key m') := by
            intro hc
            have hmm : m = m' := memberKey_inj hc
            rw [← hmm] at hmem
            rw [hsg] at hmem
            have hscs : sc = sc' := Option.some.inj hmem
            exact e1 (by rw [hkey, ← hmm, ← hscs])
          have hn1 : ¬(scoreKey key m sc = memberKey key m') :=
            fun hc => memberKey_ne_scoreKey key m' m sc hc.symm
          rw [storeGet_del, if_neg hn1, storeGet_del, if_neg hn2, hmem]

theorem remBatch_congr (key : Bytes) :
    ∀ (ms : List Bytes) {s t : Store},
      (∀ m ∈ ms, storeGet s (memberKey key m)
        = storeGet t (memberKey key m)) →
      remBatch s key ms = remBatch t key ms := by
  intro ms
  induction ms with
  | nil => intro s t _; rfl
  | cons m rest ih =>
    intro s t h
    unfold remBatch
    rw [ih (fun q hq => h q (List.mem_cons_of_mem m hq))]
    congr 1
    unfold remOps
    rw [h m (List.mem_cons_self m rest)]

theorem remN_congr (key : Bytes) :
    ∀ (ms : List Bytes) {s t : Store},
      (∀ m ∈ ms, storeGet s (memberKey key m)
        = storeGet t (memberKey key m)) →
      remN s key ms = remN t key ms := by
  intro ms
  induction ms with
  | nil => intro s t _; rfl
  | cons m rest ih =>
    intro s t h
    unfold remN
    simp only [List.countP_cons]
    have h1 := ih (fun q hq => h q (List.mem_cons_of_mem m hq))
    unfold remN at h1
    rw [h1, h m (List.mem_cons_self m rest)]

theorem remBatch_seq (key m : Bytes) (ms : List Bytes) (s : Store)
    (hdist : ∀ q ∈ ms, q ≠ m) :
    applyBatch s (remBatch s key (m :: ms))
      = applyBatch (rem1 s key m) (remBatch (rem1 s key m) key ms) := by
  show applyBatch s (remOps s key m ++ remBatch s key ms) = _
  rw [applyBatch_append]
  show applyBatch (rem1 s key m) (remBatch s key ms) = _
  congr 1
  apply remBatch_congr
  intro q hq
  exact (rem1_get_member_other s key m q (hdist q hq)).symm

theorem remRun_WF (key : Bytes) :
    ∀ (ms : List Bytes) (s : Store),
      ZDual key s →
      ms.Pairwise (fun a b => a ≠ b) →
      ZDual key (applyBatch s (remBatch s key ms))
      ∧ countKey (memberQ key) (applyBatch s (remBatch s key ms))
          + remN s key ms = countKey (memberQ key) s
      ∧ storeGet (applyBatch s (remBatch s key ms)) (zsetKey key)
          = storeGet s (zsetKey key) := by
  intro ms
  induction ms with
  | nil =>
    intro s h _
    exact ⟨h, by simp [remBatch, remN, applyBatch], rfl⟩
  | cons m rest ih =>
    intro s h hdist
    have hcs := List.pairwise_cons.1 hdist
    have hdh : ∀ q ∈ rest, q ≠ m := fun q hq => (hcs.1 q hq).symm
    rw [remBatch_seq key m rest s hdh]
    have hd1 : ZDual key (rem1 s key m) := ZDual_rem1 h m
    have hih := ih (rem1 s key m) hd1 hcs.2
    refine ⟨hih.1, ?_, ?_⟩
    · have hrN : remN (rem1 s key m) key rest = remN s key rest :=
        remN_congr key rest
          (fun q hq => (rem1_get_member_other s key m q (hdh q hq)))
      have hc1 := rem1_count key m h.1
      have hNc : remN s key (m :: rest)
          = remN s key rest
            + (if (storeGet s (memberKey key m)).isSome then 1 else 0) := by
        unfold remN
        rw [List.countP_cons]
      rw [hNc, ← hrN]
      have hx := hih.2.1
      omega
    · rw [hih.2.2, rem1_get_record]

theorem zsRemove_false_eq (st : ZState) (ms : List Bytes)
    (hinit : zinit st = st) :
    (zsRemove st false ms).1 =
      { key := st.key,
        totalCount := st.totalCount - (remN st.store st.key ms : Int),
        store := applyBatch st.store
          (remBatch st.store st.key ms
            ++ (if st.totalCount - (remN st.store st.key ms : Int) = 0
                then [BOp.del (zsetKey st.key)]
                else [BOp.put (zsetKey st.key)
                  (intBytes
                    (st.totalCount
                      - (remN st.store st.key ms : Int)))])) } := by
  have hfold : ms.foldl (remStep st.store st.key) ([], 0)
      = (remBatch st.store st.key ms, remN st.store st.key ms) := by
    rw [remFold_spec st.store st.key ms [] 0]
    simp
  simp only [zsRemove, hinit]
  rw [hfold]
  rfl

theorem applyBatch_one_del (s : Store) (k : Bytes) :
    applyBatch s [BOp.del k] = storeDel s k := rfl

theorem applyBatch_one_put (s : Store) (k v : Bytes) :
    applyBatch s [BOp.put k v] = storePut s k v := rfl

/-- Variadic `Remove` preserves the full invariant, for
pairwise-distinct members. -/
theorem ZWF_zsRemove {st : ZState} {ms : List Bytes}
    (h : ZWF st) (hdist : ms.Pairwise (fun a b => a ≠ b)) :
    ZWF (zsRemove st false ms).1 := by
  obtain ⟨hd, hcnt, hrec⟩ := h
  have hinit : zinit st = st := zinit_of_nonneg (by rw [hcnt]; omega)
  have run := remRun_WF st.key ms st.store hd hdist
  rw [zsRemove_false_eq st ms hinit]
  have hq0 : memberQ st.key (zsetKey st.key) = false :=
    isPre_memberStem_zsetKey st.key
  unfold memberCount at hcnt
  by_cases hz : st.totalCount - (remN st.store st.key ms : Int) = 0
  · rw [if_pos hz, applyBatch_append, applyBatch_one_del]
    have hcnt2 : countKey (memberQ st.key)
        (storeDel (applyBatch st.store (remBatch st.store st.key ms))
          (zsetKey st.key))
        = countKey (memberQ st.key)
            (applyBatch st.store (remBatch st.store st.key ms)) :=
      countKey_del_not hq0
    have hc0 : countKey (memberQ st.key)
        (applyBatch st.store (remBatch st.store st.key ms)) = 0 := by
      have hx := run.2.1
      omega
    refine ⟨(ZDual_record run.1).2, ?_, ?_⟩
    · show st.totalCount - (remN st.store st.key ms : Int)
        = (countKey (memberQ st.key)
            (storeDel (applyBatch st.store (remBatch st.store st.key ms))
              (zsetKey st.key)) : Int)
      rw [hcnt2, hc0, hz]
      rfl
    · show storeGet
          (storeDel (applyBatch st.store (remBatch st.store st.key ms))
            (zsetKey st.key)) (zsetKey st.key)
        = if countKey (memberQ st.key)
            (storeDel (applyBatch st.store (remBatch st.store st.key ms))
              (zsetKey st.key)) = 0
          then none
          else some (intBytes
            (st.totalCount - (remN st.store st.key ms : Int)))
      rw [storeGet_del, if_pos rfl, hcnt2, hc0, if_pos rfl]
  · rw [if_neg hz, applyBatch_append, applyBatch_one_put]
    have hcnt2 : countKey (memberQ st.key)
        (storePut (applyBatch st.store (remBatch st.store st.key ms))
          (zsetKey st.key)
          (intBytes (st.totalCount - (remN st.store st.key ms : Int))))
        = countKey (memberQ st.key)
            (applyBatch st.store (remBatch st.store st.key ms)) :=
      countKey_put_not hq0
    have hcpos : countKey (memberQ st.key)
        (applyBatch st.store (remBatch st.store st.key ms)) ≠ 0 := by
      intro hc
      have hx := run.2.1
      omega
    refine ⟨(ZDual_record run.1).1 _, ?_, ?_⟩
    · show st.totalCount - (remN st.store st.key ms : Int)
        = (countKey (memberQ st.key)
            (storePut (applyBatch st.store (remBatch st.store st.key ms))
              (zsetKey st.key)
              (intBytes
                (st.totalCount - (remN st.store st.key ms : Int)))) : Int)
      rw [hcnt2]
      have hx := run.2.1
      omega
    · show storeGet
          (storePut (applyBatch st.store (remBatch st.store st.key ms))
            (zsetKey st.key)
            (intBytes (st.totalCount - (remN st.store st.key ms : Int))))
          (zsetKey st.key)
        = if countKey (memberQ st.key)
            (storePut (applyBatch st.store (remBatch st.store st.key ms))
              (zsetKey st.key)
              (intBytes
                (st.totalCount - (remN st.store st.key ms : Int)))) = 0
          then none
          else some (intBytes
            (st.totalCount - (remN st.store st.key ms : Int)))
      rw [storeGet_put, if_pos rfl, hcnt2, if_neg hcpos]

/-- A freshly-initialized sorted set satisfies the full invariant. -/
theorem ZWF_start (key : Bytes) : ZWF ⟨key, 0, []⟩ := by
  refine ⟨⟨List.nodup_nil, ?_, ?_⟩, ?_, ?_⟩
  · intro m sc hm
    exact Option.noConfusion hm
  · intro k v hk _
    exact Option.noConfusion hk
  · rfl
  · rfl

/-- C2 counterexample: `IncrBy` on a fresh (empty, lazily-initialized)
sorted set inserts a brand-new member into both indices but leaves the
cached count at 0 and never writes the count record, so the cached
element count does not equal the number of members after this mutating
operation, contradicting the count-sync part of the claim. -/
theorem claim_C2_counterexample :
    memberCount (zsIncrBy (znew [97] []) false [120] 5).1 = 1
    ∧ (zsIncrBy (znew [97] []) false [120] 5).1.totalCount = 0
    ∧ storeGet (zsIncrBy (znew [97] []) false [120] 5).1.store
        (zsetKey [97]) = none := by
  refine ⟨?_, ?_, ?_⟩ <;> decide

/-- C2 (amended): on a well-formed sorted set, `Add` (nonempty,
pairwise-distinct members, '#'-free scores and members) and `Remove`
(pairwise-distinct members) preserve the full invariant: dual index in
sync plus cached count = number of members, record deleted at zero and
rewritten otherwise.  `IncrBy` updates the member entry and the score
entry (deleting the old score entry) in its single batch and preserves
the dual-index invariant, but leaves the cached count and the count
record untouched, so the count-sync part of the original claim fails
for it (see the counterexample). -/
theorem claim_C2_invariant (st : ZState) (pairs : List (Bytes × Bytes))
    (ms : List Bytes) (m : Bytes) (incr : Int)
    (hwf : ZWF st)
    (hne : pairs ≠ [])
    (hclean : ∀ p ∈ pairs, sepFree p.1 ∧ sepFree p.2)
    (hpd : pairs.Pairwise (fun p q => p.2 ≠ q.2))
    (hmd : ms.Pairwise (fun a b => a ≠ b))
    (hm : sepFree m) :
    ZWF (zsAdd st false pairs).1
    ∧ ZWF (zsRemove st false ms).1
    ∧ (ZDual st.key (zsIncrBy st false m incr).1.store
       ∧ storeGet (zsIncrBy st false m incr).1.store (memberKey st.key m)
           = some (zsIncrBy st false m incr).2
       ∧ storeGet (zsIncrBy st false m incr).1.store
           (scoreKey st.key m (zsIncrBy st false m incr).2) = some []
       ∧ (zsIncrBy st false m incr).1.totalCount = st.totalCount
       ∧ storeGet (zsIncrBy st false m incr).1.store (zsetKey st.key)
           = storeGet st.store (zsetKey st.key)) := by
  have hinit : zinit st = st := zinit_of_nonneg (by rw [hwf.2.1]; omega)
  refine ⟨ZWF_zsAdd ⟨hwf.1, hwf.2.1, hwf.2.2⟩ hne hclean hpd,
    ZWF_zsRemove ⟨hwf.1, hwf.2.1, hwf.2.2⟩ hmd, ?_⟩
  have hi := ZIncr_spec m incr hwf.1 hm hinit
  exact ⟨hi.1, hi.2.2.2.1, hi.2.2.2.2, hi.2.1, hi.2.2.1⟩

theorem claim_C2_invariant_witness :
    ZWF (zsAdd ⟨[97], 0, []⟩ false [([49], [120])]).1
    ∧ ZWF (zsRemove ⟨[97], 0, []⟩ false [[121]]).1
    ∧ (ZDual [97] (zsIncrBy ⟨[97], 0, []⟩ false [120] 5).1.store
       ∧ storeGet (zsIncrBy ⟨[97], 0, []⟩ false [120] 5).1.store
           (memberKey [97] [120])
           = some (zsIncrBy ⟨[97], 0, []⟩ false [120] 5).2
       ∧ storeGet (zsIncrBy ⟨[97], 0, []⟩ false [120] 5).1.store
           (scoreKey [97] [120] (zsIncrBy ⟨[97], 0, []⟩ false [120] 5).2)
           = some []
       ∧ (zsIncrBy ⟨[97], 0, []⟩ false [120] 5).1.totalCount = 0
       ∧ storeGet (zsIncrBy ⟨[97], 0, []⟩ false [120] 5).1.store
           (zsetKey [97]) = storeGet [] (zsetKey [97])) :=
  claim_C2_invariant ⟨[97], 0, []⟩ [([49], [120])] [[121]] [120] 5
    (ZWF_start [97]) (by decide) (by decide) (by decide) (by decide)
    (by decide)

/-! ### MapDocument (go_redis_server_list.go)

The document values are Go `interface{}` data decoded from JSON: maps,
lists, strings and numbers.  `vflt n` models a `float64` by the
integer that `int(float64)` truncation yields — the only numeric
observation the document code ever makes of a float.  Go maps are
modelled as association lists with a canonical update (delete then
append), read through `mapGet`. -/

inductive GoVal where
  | vstr (s : String)
  | vint (n : Int)
  | vflt (n : Int)
  | vlist (l : List GoVal)
  | vmap (m : List (String × GoVal))

/-- The `reflect.TypeOf(x) == MapInterfaceType` test plus the
`.(map[string]interface{})` assertion, in one step. -/
def asMapQ : GoVal → Option (List (String × GoVal))
  | GoVal.vmap m => some m
  | _ => none

def mapGet : List (String × GoVal) → String → Option GoVal
  | [], _ => none
  | (k, v) :: rest, q => if k = q then some v else mapGet rest q

/-- Go map assignment `m[k] = v` (replace or insert). -/
def mapSet (m : List (String × GoVal)) (k : String) (v : GoVal) :
    List (String × GoVal) :=
  m.filter (fun p => p.1 ≠ k) ++ [(k, v)]

theorem mapGet_cons (pk : String) (pv : GoVal)
    (rest : List (String × GoVal)) (q : String) :
    mapGet ((pk, pv) :: rest) q
      = if pk = q then some pv else mapGet rest q := rfl

theorem mapGet_mapSet (m : List (String × GoVal)) (k : String) (v : GoVal)
    (q : String) :
    mapGet (mapSet m k v) q = if k = q then some v else mapGet m q := by
  induction m with
  | nil => by_cases h : k = q <;> simp [mapSet, mapGet, h]
  | cons p rest ih =>
    rcases p with ⟨pk, pv⟩
    unfold mapSet at ih ⊢
    by_cases hpk : pk = k
    · rw [List.filter_cons_of_neg (by simp [hpk]), ih, mapGet_cons]
      by_cases h : k = q
      · rw [if_pos h, if_pos h]
      · rw [if_neg h, if_neg h, if_neg (by rw [hpk]; exact h)]
    · rw [List.filter_cons_of_pos (by simp [hpk]), List.cons_append,
        mapGet_cons, ih, mapGet_cons]
      by_cases hq : pk = q
      · rw [if_pos hq,
          if_neg (fun hc : k = q => hpk (hq.trans hc.symm)), if_pos hq]
      · rw [if_neg hq, if_neg hq]

/-- `strings.Split(field, ".")`. -/
def splitDotAux : List Char → List Char → List String
  | [], cur => [String.mk cur.reverse]
  | c :: rest, cur =>
    if c = '.' then String.mk cur.reverse :: splitDotAux rest []
    else splitDotAux rest (c :: cur)

def splitDot (s : String) : List String := splitDotAux s.toList []

/-- The inner segment loop of `RichGet`, one field at a time.  The
destination cursor `dstparent` (a pointer into the result under
construction) is modelled by the zipper `(stk, acc)`: `acc` is the
mapping the cursor points at and `stk` the chain of enclosing mappings
with the key the cursor was reached by; `closeStack` reassembles the
root.  Missing segments are skipped (`continue`); non-mapping values
are copied at the cursor; a mapping segment overwrites the cursor
entry with a fresh empty mapping and descends on both sides. -/
def rgLoop (stk : List (List (String × GoVal) × String))
    (acc src : List (String × GoVal)) :
    List String →
      List (List (String × GoVal) × String)
      × List (String × GoVal) × List (String × GoVal)
  | [] => (stk, acc, src)
  | k :: rest =>
    match mapGet src k with
    | none => rgLoop stk acc src rest
    | some obj =>
      match asMapQ obj with
      | some sub => rgLoop ((acc, k) :: stk) [] sub rest
      | none => rgLoop stk (mapSet acc k obj) src rest

def closeStack : List (List (String × GoVal) × String)
    → List (String × GoVal) → List (String × GoVal)
  | [], acc => acc
  | (m, k) :: stk, acc => closeStack stk (mapSet m k (GoVal.vmap acc))

/-- One field of `RichGet`: run the segment loop from the result root,
then look the last segment up once more in the final source node and
copy it if present. -/
def richGetField (res src : List (String × GoVal))
    (segs : List String) : List (String × GoVal) :=
  match rgLoop [] res src segs with
  | (stk, acc, fs) =>
    match mapGet fs (segs.getLastD "") with
    | some v => closeStack stk (mapSet acc (segs.getLastD "") v)
    | none => closeStack stk acc

/-- `MapDocument.RichGet`: no fields copies the whole document;
otherwise each field is walked in turn against the shared result. -/
def richGet (doc : List (String × GoVal)) (fields : List String) :
    List (String × GoVal) :=
  match fields with
  | [] => doc
  | _ => fields.foldl (fun res f => richGetField res doc (splitDot f)) []

/-- The per-field walk as the amended claim describes it, as a direct
recursion carrying the last segment `L`, the current source node and
the mapping built at the current destination node: a missing segment
is skipped and the walk continues against the same nodes; a
non-mapping value is copied at the current node; a mapping segment
contributes a freshly built (overwriting) sub-mapping; when the
segments are exhausted, `L` is looked up in the final source node and
copied if present. -/
def rgsem (L : String) (src acc : List (String × GoVal)) :
    List String → List (String × GoVal)
  | [] =>
    match mapGet src L with
    | some v => mapSet acc L v
    | none => acc
  | k :: rest =>
    match mapGet src k with
    | none => rgsem L src acc rest
    | some obj =>
      match asMapQ obj with
      | some sub => mapSet acc k (GoVal.vmap (rgsem L sub [] rest))
      | none => rgsem L src (mapSet acc k obj) rest

theorem rgLoop_close (L : String) :
    ∀ (segs : List String) (src acc : List (String × GoVal))
      (stk : List (List (String × GoVal) × String)),
      (match rgLoop stk acc src segs with
       | (stk2, acc2, fs) =>
         match mapGet fs L with
         | some v => closeStack stk2 (mapSet acc2 L v)
         | none => closeStack stk2 acc2)
      = closeStack stk (rgsem L src acc segs) := by
  intro segs
  induction segs with
  | nil =>
    intro src acc stk
    show (match mapGet src L with
          | some v => closeStack stk (mapSet acc L v)
          | none => closeStack stk acc)
      = closeStack stk (match mapGet src L with
          | some v => mapSet acc L v
          | none => acc)
    cases mapGet src L <;> rfl
  | cons k rest ih =>
    intro src acc stk
    cases hg : mapGet src k with
    | none =>
      have h1 : rgLoop stk acc src (k :: rest) = rgLoop stk acc src rest := by
        simp only [rgLoop, hg]
      have h2 : rgsem L src acc (k :: rest) = rgsem L src acc rest := by
        simp only [rgsem, hg]
      rw [h1, h2]
      exact ih src acc stk
    | some obj =>
      cases hmq : asMapQ obj with
      | some sub =>
        have h1 : rgLoop stk acc src (k :: rest)
            = rgLoop ((acc, k) :: stk) [] sub rest := by
          simp only [rgLoop, hg, hmq]
        have h2 : rgsem L src acc (k :: rest)
            = mapSet acc k (GoVal.vmap (rgsem L sub [] rest)) := by
          simp only [rgsem, hg, hmq]
        rw [h1, h2, ih sub [] ((acc, k) :: stk)]
        rfl
      | none =>
        have h1 : rgLoop stk acc src (k :: rest)
            = rgLoop stk (mapSet acc k obj) src rest := by
          simp only [rgLoop, hg, hmq]
        have h2 : rgsem L src acc (k :: rest)
            = rgsem L src (mapSet acc k obj) rest := by
          simp only [rgsem, hg, hmq]
        rw [h1, h2]
        exact ih src (mapSet acc k obj) stk

theorem richGetField_spec (src res : List (String × GoVal))
    (segs : List String) :
    richGetField res src segs = rgsem (segs.getLastD "") src res segs := by
  have h := rgLoop_close (segs.getLastD "") segs src res []
  unfold richGetField
  exact h

/-- C4 counterexample: on the document `{"b": 5}` the single path
`"a.b"` has its intermediate segment `"a"` missing, yet `RichGet`
returns `{"b": 5}`, not the empty document: the loop `continue`s past
the missing segment and matches the remaining segments against the
same source node, so the path still contributes an entry. -/
theorem claim_C4_counterexample :
    richGet [("b", GoVal.vint 5)] ["a.b"] = [("b", GoVal.vint 5)] := rfl

/-- Claim C4 (amended): with a nonempty path list, `RichGet` processes
each dotted path in turn against the shared result by the walk
`rgsem`: segments are scanned left to right against a source cursor;
a missing segment is skipped and the scan continues with the remaining
segments against the same cursor (the path may still contribute
entries); a non-mapping value is copied at the current destination
node; a mapping value overwrites the destination entry with a freshly
built parallel mapping that the scan descends into; after the scan the
last segment is looked up once more in the final source cursor and
copied if present. -/
theorem claim_C4_richget (doc : List (String × GoVal))
    (fields : List String) (h : fields ≠ []) :
    richGet doc fields
      = fields.foldl
          (fun res f =>
            rgsem ((splitDot f).getLastD "") doc res (splitDot f)) [] := by
  have hfun : (fun res f => richGetField res doc (splitDot f))
      = (fun res f =>
          rgsem ((splitDot f).getLastD "") doc res (splitDot f)) := by
    funext res f
    exact richGetField_spec doc res (splitDot f)
  cases fields with
  | nil => exact absurd rfl h
  | cons f rest =>
    show List.foldl (fun res g => richGetField res doc (splitDot g)) []
        (f :: rest) = _
    rw [hfun]

theorem claim_C4_richget_witness :
    (["a.b"] : List String) ≠ []
    ∧ richGet [("b", GoVal.vint 5)] ["a.b"]
        = List.foldl
            (fun res f =>
              rgsem ((splitDot f).getLastD "") [("b", GoVal.vint 5)] res
                (splitDot f)) [] ["a.b"] :=
  ⟨by decide, claim_C4_richget [("b", GoVal.vint 5)] ["a.b"] (by decide)⟩

/-! ### `MapDocument.doIncr` / `toInt` -/

/-- `toInt`: accepts Go `int` and `float64` (truncated); anything else
is `BadArgumentType`, modelled as `none`. -/
def toInt : GoVal → Option Int
  | GoVal.vint n => some n
  | GoVal.vflt n => some n
  | _ => none

/-- `MapDocument.doIncr`: an absent leaf stores the incoming value
with no type check; a present leaf requires both the old and the
incoming value to convert, else `BadArgumentType` (modelled `some ()`)
with the map unchanged; on success the sum is stored as an `int`. -/
def doIncr (parent : List (String × GoVal)) (key : String)
    (value : GoVal) : List (String × GoVal) × Option Unit :=
  match mapGet parent key with
  | none => (mapSet parent key value, none)
  | some obj =>
    match toInt obj, toInt value with
    | some a, some b => (mapSet parent key (GoVal.vint (a + b)), none)
    | _, _ => (parent, some ())

/-- `findElement(field, createIfMissing=true)` composed with `doIncr`
(the `$inc` arm of `RichSet`): intermediate segments that are missing
or hold a non-mapping are overwritten with fresh empty mappings, the
leaf is incremented by `doIncr`, and the rebuilt document plus
`doIncr`'s error are returned. -/
def incField : List (String × GoVal) → List String → GoVal →
    List (String × GoVal) × Option Unit
  | doc, [], _ => (doc, none)
  | doc, [k], v => doIncr doc k v
  | doc, k :: r :: rs, v =>
    match (mapGet doc k).bind asMapQ with
    | some m =>
      match incField m (r :: rs) v with
      | (m2, e) => (mapSet doc k (GoVal.vmap m2), e)
    | none =>
      match incField [] (r :: rs) v with
      | (m2, e) => (mapSet doc k (GoVal.vmap m2), e)

/-- Observation: the value reachable by descending a dotted path
through mappings (none when an intermediate is missing or not a
mapping). -/
def getPath : List (String × GoVal) → List String → Option GoVal
  | _, [] => none
  | doc, [k] => mapGet doc k
  | doc, k :: r :: rs =>
    match (mapGet doc k).bind asMapQ with
    | some m => getPath m (r :: rs)
    | none => none

theorem getPath_nil {segs : List String} (h : segs ≠ []) :
    getPath [] segs = none := by
  cases segs with
  | nil => exact absurd rfl h
  | cons k rest => cases rest <;> rfl

theorem doIncr_absent {doc : List (String × GoVal)} {k : String}
    {v : GoVal} (hg : mapGet doc k = none) :
    doIncr doc k v = (mapSet doc k v, none) := by
  unfold doIncr
  rw [hg]

theorem doIncr_num {doc : List (String × GoVal)} {k : String}
    {v obj : GoVal} {a b : Int} (hg : mapGet doc k = some obj)
    (ha : toInt obj = some a) (hb : toInt v = some b) :
    doIncr doc k v = (mapSet doc k (GoVal.vint (a + b)), none) := by
  simp only [doIncr, hg, ha, hb]

theorem doIncr_bad {doc : List (String × GoVal)} {k : String}
    {v obj : GoVal} (hg : mapGet doc k = some obj)
    (hbad : toInt obj = none ∨ toInt v = none) :
    doIncr doc k v = (doc, some ()) := by
  rcases hbad with h | h
  · simp only [doIncr, hg, h]
  · simp only [doIncr, hg, h]
    all_goals cases toInt obj <;> rfl

theorem incField_one (doc : List (String × GoVal)) (k : String)
    (v : GoVal) : incField doc [k] v = doIncr doc k v := by
  simp only [incField]

theorem getPath_one (doc : List (String × GoVal)) (k : String) :
    getPath doc [k] = mapGet doc k := by
  simp only [getPath]

/-- C5 counterexample: incrementing the absent leaf `"a"` by the
non-numeric value `"x"` stores the string and reports no error,
whereas the claim requires a type-mismatch failure whenever the
incoming value is not numeric. -/
theorem claim_C5_counterexample :
    doIncr [] "a" (GoVal.vstr "x") = ([("a", GoVal.vstr "x")], none) := rfl

/-- Claim C5 (amended): the `inc` operator on a dotted path (absent or
non-mapping intermediate segments are overwritten with fresh empty
mappings by findElement): when the leaf is unreachable or absent, the
incoming value is stored at the path as-is with no error and no type
check — even a non-numeric value; when the leaf exists and both the
old and the incoming value are numeric (int or float64, truncated),
the leaf becomes their integer sum with no error; when the leaf exists
and either value is non-numeric, the call fails with the
type-mismatch error and the leaf keeps its old value. -/
theorem claim_C5_inc : ∀ (segs : List String)
    (doc : List (String × GoVal)) (v : GoVal), segs ≠ [] →
    (getPath doc segs = none →
      (incField doc segs v).2 = none
      ∧ getPath (incField doc segs v).1 segs = some v)
    ∧ (∀ obj a b, getPath doc segs = some obj → toInt obj = some a →
        toInt v = some b →
        (incField doc segs v).2 = none
        ∧ getPath (incField doc segs v).1 segs
            = some (GoVal.vint (a + b)))
    ∧ (∀ obj, getPath doc segs = some obj →
        toInt obj = none ∨ toInt v = none →
        (incField doc segs v).2 = some ()
        ∧ getPath (incField doc segs v).1 segs = some obj) := by
  intro segs
  induction segs with
  | nil => intro doc v h; exact absurd rfl h
  | cons k rest ih =>
    intro doc v _
    cases rest with
    | nil =>
      have hset : ∀ w : GoVal, getPath (mapSet doc k w) [k] = some w := by
        intro w
        rw [getPath_one, mapGet_mapSet, if_pos rfl]
      refine ⟨?_, ?_, ?_⟩
      · intro hnone
        have hg : mapGet doc k = none := by
          rw [← getPath_one doc k]; exact hnone
        rw [incField_one, doIncr_absent hg]
        exact ⟨rfl, hset v⟩
      · intro obj a b hobj ha hb
        have hg : mapGet doc k = some obj := by
          rw [← getPath_one doc k]; exact hobj
        rw [incField_one, doIncr_num hg ha hb]
        exact ⟨rfl, hset _⟩
      · intro obj hobj hbad
        have hg : mapGet doc k = some obj := by
          rw [← getPath_one doc k]; exact hobj
        rw [incField_one, doIncr_bad hg hbad]
        exact ⟨rfl, hobj⟩
    | cons r rs =>
      have hne : (r :: rs : List String) ≠ [] := by simp
      rcases hmq : (mapGet doc k).bind asMapQ with _ | m
      · have hgp : getPath doc (k :: r :: rs) = none := by
          simp only [getPath, hmq]
        rcases he : incField [] (r :: rs) v with ⟨m2, e⟩
        have hif : incField doc (k :: r :: rs) v
            = (mapSet doc k (GoVal.vmap m2), e) := by
          simp only [incField, hmq, he]
        have hb2 : (mapGet (mapSet doc k (GoVal.vmap m2)) k).bind asMapQ
            = some m2 := by
          rw [mapGet_mapSet, if_pos rfl]; rfl
        have hgp2 : getPath (mapSet doc k (GoVal.vmap m2)) (k :: r :: rs)
            = getPath m2 (r :: rs) := by
          simp only [getPath, hb2]
        have hih := (ih [] v hne).1 (getPath_nil hne)
        rw [he] at hih
        refine ⟨?_, ?_, ?_⟩
        · intro _
          rw [hif]
          exact ⟨hih.1, by rw [hgp2]; exact hih.2⟩
        · intro obj a b hobj ha hb
          rw [hgp] at hobj
          cases hobj
        · intro obj hobj hbad
          rw [hgp] at hobj
          cases hobj
      · have hgp : getPath doc (k :: r :: rs) = getPath m (r :: rs) := by
          simp only [getPath, hmq]
        rcases he : incField m (r :: rs) v with ⟨m2, e⟩
        have hif : incField doc (k :: r :: rs) v
            = (mapSet doc k (GoVal.vmap m2), e) := by
          simp only [incField, hmq, he]
        have hb2 : (mapGet (mapSet doc k (GoVal.vmap m2)) k).bind asMapQ
            = some m2 := by
          rw [mapGet_mapSet, if_pos rfl]; rfl
        have hgp2 : getPath (mapSet doc k (GoVal.vmap m2)) (k :: r :: rs)
            = getPath m2 (r :: rs) := by
          simp only [getPath, hb2]
        have hih := ih m v hne
        refine ⟨?_, ?_, ?_⟩
        · intro hnone
          rw [hgp] at hnone
          have h1 := hih.1 hnone
          rw [he] at h1
          rw [hif]
          exact ⟨h1.1, by rw [hgp2]; exact h1.2⟩
        · intro obj a b hobj ha hb
          rw [hgp] at hobj
          have h1 := hih.2.1 obj a b hobj ha hb
          rw [he] at h1
          rw [hif]
          exact ⟨h1.1, by rw [hgp2]; exact h1.2⟩
        · intro obj hobj hbad
          rw [hgp] at hobj
          have h1 := hih.2.2 obj hobj hbad
          rw [he] at h1
          rw [hif]
          exact ⟨h1.1, by rw [hgp2]; exact h1.2⟩

theorem claim_C5_inc_witness :
    (["a"] : List String) ≠ []
    ∧ ((getPath ([] : List (String × GoVal)) ["a"] = none →
        (incField [] ["a"] (GoVal.vstr "x")).2 = none
        ∧ getPath (incField [] ["a"] (GoVal.vstr "x")).1 ["a"]
            = some (GoVal.vstr "x"))
      ∧ (∀ obj a b,
          getPath ([] : List (String × GoVal)) ["a"] = some obj →
          toInt obj = some a → toInt (GoVal.vstr "x") = some b →
          (incField [] ["a"] (GoVal.vstr "x")).2 = none
          ∧ getPath (incField [] ["a"] (GoVal.vstr "x")).1 ["a"]
              = some (GoVal.vint (a + b)))
      ∧ (∀ obj,
          getPath ([] : List (String × GoVal)) ["a"] = some obj →
          toInt obj = none ∨ toInt (GoVal.vstr "x") = none →
          (incField [] ["a"] (GoVal.vstr "x")).2 = some ()
          ∧ getPath (incField [] ["a"] (GoVal.vstr "x")).1 ["a"]
              = some obj)) :=
  ⟨by decide, claim_C5_inc ["a"] [] (GoVal.vstr "x") (by decide)⟩

end GoRedis
